import Mathlib

/-!
Shallow embedding of the measurement-ingestion engine of this repository:

* `src/ingest.py` — provider detection (`detect_provider`), wide-to-long
  reshaping (`wide_to_long`), rule-driven normalization (`normalize_df`),
  the inline rad→deg unit normalization, the content-hash ledger
  (`load_hashes` / `save_hash`) and the dedup-merging main loop (`main`).
* `src/tools/migrate_units_to_deg.py` — the standalone bulk unit migration.

Modelling conventions:

* A pandas `DataFrame` is a `Frame`: an ordered list of column names plus a
  list of rows; a row is an association list from column name to cell value.
  A cell read of an absent column yields `Val.vNone` (pandas NaN).
* Python floats are modelled as exact rationals (`ℚ`).  The constant
  `3.141592653589793` of ingest.py line 129 and `math.pi` of the migration
  tool denote the same IEEE-754 double, whose exact value is the rational
  `piF64` below.  Floating-point rounding of the multiplications is not
  modelled; the spec's 1e-9 relative tolerance absorbs it by a large margin.
* Fallible code returns `Except`; the `try`/`except` of `main` maps any
  error raised while a file is processed to that file's failure.
* File parsing (`read_any_bytes`) is the external frame reader of the spec:
  a `FileInput` carries the reader's outcome for that file's bytes
  (`Except` models the `UnsupportedFormat` / parse failures).
* The ledger file is a `List Char`; `load_hashes`/`save_hash` are modelled
  byte-faithfully (`splitNL`, `stripChars` mirror `str.splitlines` on
  newline-separated content and `str.strip`).  Python's `set()` is modelled
  by list membership.
* The CSV/Parquet round trip of the store is abstracted to the identity on
  rows; the Parquet mirror (non-authoritative, failures non-fatal) is not
  modelled.  `uploads` directory listing order is the `List FileInput`
  argument order (the source sorts file names).
-/

/-- A cell value: a string, a float (as an exact rational), or a missing
value (pandas NaN). -/
inductive Val where
  | vStr (s : String)
  | vNum (q : ℚ)
  | vNone
  deriving DecidableEq

/-- A row of a frame: an association list from column name to cell value. -/
abbrev Row := List (String × Val)

/-- First-match association-list lookup (`r[c]` on one row). -/
def lookupVal : Row → String → Option Val
  | [], _ => none
  | (c, v) :: rest, k => if c = k then some v else lookupVal rest k

/-- Cell access: a column absent from the row reads as NaN (`vNone`),
matching the NaN padding pandas inserts when frames with different column
sets are concatenated. -/
def getCell (r : Row) (c : String) : Val := (lookupVal r c).getD .vNone

/-- Cell update `df.loc[row, k] = v`: replace in place when the key is
present, append otherwise. -/
def setCell : Row → String → Val → Row
  | [], k, v => [(k, v)]
  | (c, w) :: rest, k, v => if c = k then (k, v) :: rest else (c, w) :: setCell rest k v

/-- A tabular frame: ordered column names plus rows. -/
structure Frame where
  cols : List String
  rows : List Row
  deriving DecidableEq

/-- Well-formedness of a pandas frame: every key of every row is one of the
frame's columns.  Frames built by pandas always satisfy this. -/
def WFFrame (df : Frame) : Prop := ∀ r ∈ df.rows, ∀ p ∈ r, p.1 ∈ df.cols

instance (df : Frame) : Decidable (WFFrame df) := by
  unfold WFFrame; infer_instance

/-- Column assignment `df[k] = v` with a scalar: broadcast `v` to every row,
appending the column when new. -/
def setCol (df : Frame) (k : String) (v : Val) : Frame :=
  { cols := if k ∈ df.cols then df.cols else df.cols ++ [k],
    rows := df.rows.map (fun r => setCell r k v) }

/-! ### Python expression evaluation (the `derived` formulas)

`normalize_df` evaluates each derived-column formula with CPython's `eval`,
passing `{"__builtins__": {}}` as globals and, as locals, the frame columns
whose names occur as substrings of the formula text.  Emptying
`__builtins__` removes builtin *names* only: the full expression grammar —
attribute access, method calls, arithmetic — remains evaluable.  The model
below embeds the fragment of CPython/pandas expression semantics the claims
exercise: name lookup (locals only; an unbound name raises `NameError`),
arithmetic on scalars and Series (element-wise; NaN propagates through
float arithmetic, mixing a string with a number raises `TypeError`), and a
small but genuine part of the attribute surface (`Series.abs`,
`float.real`, `float.conjugate`).  Anything outside the fragment is mapped
to an error, so the model only *under*-approximates what `eval` accepts. -/

/-- Errors surfacing from formula evaluation (and the two `KeyError` /
`astype(float)` failure modes of the unit-normalization block). -/
inductive PyErr where
  | nameError
  | typeError
  | attributeError
  | zeroDivError
  | lengthError
  deriving DecidableEq

/-- A value of the expression evaluator: a scalar, a pandas Series (one cell
per frame row), or a bound method. -/
inductive PyVal where
  | pyScalar (v : Val)
  | pySeries (cells : List Val)
  | pyMethod (m : String) (recv : PyVal)
  deriving DecidableEq

/-- The arithmetic operators of the expression grammar. -/
inductive ArithOp where
  | aAdd | aSub | aMul | aDiv
  deriving DecidableEq

/-- Scalar (element-wise) arithmetic.  Numbers combine numerically, `+` on
two strings concatenates, NaN propagates through float arithmetic, any
other mixture raises `TypeError`.  (A scalar `1/0` raises in Python; the
vectorized pandas division would yield inf — no claim exercises it.) -/
def valArith : ArithOp → Val → Val → Except PyErr Val
  | .aAdd, .vStr a, .vStr b => .ok (.vStr (a ++ b))
  | .aDiv, .vNum a, .vNum b => if b = 0 then .error .zeroDivError else .ok (.vNum (a / b))
  | .aAdd, .vNum a, .vNum b => .ok (.vNum (a + b))
  | .aSub, .vNum a, .vNum b => .ok (.vNum (a - b))
  | .aMul, .vNum a, .vNum b => .ok (.vNum (a * b))
  | _, .vNone, .vNum _ => .ok .vNone
  | _, .vNum _, .vNone => .ok .vNone
  | _, .vNone, .vNone => .ok .vNone
  | _, _, _ => .error .typeError

/-- Element-wise combination of two aligned Series (within one frame both
operands always have one cell per row). -/
def seriesZip (op : ArithOp) : List Val → List Val → Except PyErr (List Val)
  | [], [] => .ok []
  | a :: xs, b :: ys =>
    match valArith op a b with
    | .error e => .error e
    | .ok v =>
      match seriesZip op xs ys with
      | .error e => .error e
      | .ok vs => .ok (v :: vs)
  | _, _ => .error .lengthError

/-- Arithmetic on evaluator values, with scalar↔Series broadcasting. -/
def pyArith (op : ArithOp) : PyVal → PyVal → Except PyErr PyVal
  | .pyScalar a, .pyScalar b =>
    match valArith op a b with
    | .error e => .error e
    | .ok v => .ok (.pyScalar v)
  | .pyScalar a, .pySeries ys =>
    match ys.mapM (fun b => valArith op a b) with
    | .error e => .error e
    | .ok vs => .ok (.pySeries vs)
  | .pySeries xs, .pyScalar b =>
    match xs.mapM (fun a => valArith op a b) with
    | .error e => .error e
    | .ok vs => .ok (.pySeries vs)
  | .pySeries xs, .pySeries ys =>
    match seriesZip op xs ys with
    | .error e => .error e
    | .ok vs => .ok (.pySeries vs)
  | _, _ => .error .typeError

/-- Attribute access.  Genuine members of the modelled fragment:
`Series.abs` (a pandas method), `float.real` (the number itself) and
`float.conjugate` (a bound method).  Everything not modelled raises. -/
def pyAttr : PyVal → String → Except PyErr PyVal
  | .pySeries xs, "abs" => .ok (.pyMethod "abs" (.pySeries xs))
  | .pyScalar (.vNum q), "real" => .ok (.pyScalar (.vNum q))
  | .pyScalar (.vNum q), "conjugate" => .ok (.pyMethod "conjugate" (.pyScalar (.vNum q)))
  | _, _ => .error .attributeError

/-- Element-wise absolute value (`Series.abs()`). -/
def absVal : Val → Except PyErr Val
  | .vNum q => .ok (.vNum |q|)
  | .vNone => .ok .vNone
  | .vStr _ => .error .typeError

/-- Zero-argument call. -/
def pyCall0 : PyVal → Except PyErr PyVal
  | .pyMethod "abs" (.pySeries xs) =>
    match xs.mapM absVal with
    | .error e => .error e
    | .ok vs => .ok (.pySeries vs)
  | .pyMethod "conjugate" (.pyScalar v) => .ok (.pyScalar v)
  | _ => .error .typeError

/-- Abstract syntax of the Python expression fragment: literals, names,
the four arithmetic operators, attribute access and zero-argument calls. -/
inductive PyExpr where
  | num (q : ℚ)
  | name (s : String)
  | add (a b : PyExpr)
  | sub (a b : PyExpr)
  | mul (a b : PyExpr)
  | div (a b : PyExpr)
  | attr (a : PyExpr) (fld : String)
  | call0 (f : PyExpr)
  deriving DecidableEq

/-- Evaluation under an environment mapping a name to a column vector
(the `safe_locals` dict of `normalize_df`); a name absent from the
environment raises `NameError` (globals hold no usable bindings since
`__builtins__` is emptied).  Operands evaluate left to right. -/
def evalPy (env : String → Option (List Val)) : PyExpr → Except PyErr PyVal
  | .num q => .ok (.pyScalar (.vNum q))
  | .name s =>
    match env s with
    | some cells => .ok (.pySeries cells)
    | none => .error .nameError
  | .add a b =>
    match evalPy env a with
    | .error e => .error e
    | .ok x =>
      match evalPy env b with
      | .error e => .error e
      | .ok y => pyArith .aAdd x y
  | .sub a b =>
    match evalPy env a with
    | .error e => .error e
    | .ok x =>
      match evalPy env b with
      | .error e => .error e
      | .ok y => pyArith .aSub x y
  | .mul a b =>
    match evalPy env a with
    | .error e => .error e
    | .ok x =>
      match evalPy env b with
      | .error e => .error e
      | .ok y => pyArith .aMul x y
  | .div a b =>
    match evalPy env a with
    | .error e => .error e
    | .ok x =>
      match evalPy env b with
      | .error e => .error e
      | .ok y => pyArith .aDiv x y
  | .attr a fld =>
    match evalPy env a with
    | .error e => .error e
    | .ok x => pyAttr x fld
  | .call0 f =>
    match evalPy env f with
    | .error e => .error e
    | .ok x => pyCall0 x

/-- Substring test on character lists (Python's `c in expr` on strings). -/
def infixOf (n : List Char) : List Char → Bool
  | [] => n = []
  | c :: rest => n.isPrefixOf (c :: rest) || infixOf n rest

/-- Python's `needle in hay` on strings. -/
def isSubstr (needle hay : String) : Bool := infixOf needle.data hay.data

/-- A derived-column formula: the raw text (subject to the substring
binding test `c in expr` of `normalize_df`) together with its parsed
expression.  In the source both are one Python string, parsed by `eval`;
the two fields are that string and its parse. -/
structure Formula where
  text : String
  ast : PyExpr

/-! ### Provider rules and configuration (`ingest_config.yaml`) -/

/-- A `wide_to_long` reshape spec. -/
structure ReshapeSpec where
  id_vars : List String
  var_name : String
  value_name : String

/-- A `parse_feature` spec: the named capture groups of the regex pattern,
the per-string extraction they induce (the regex engine itself is the
abstract function `extract`, one extracted cell per group), and the
constant columns set afterwards. -/
structure ParseFeature where
  groups : List String
  extract : String → List Val
  setCols : List (String × Val)

/-- One provider rule.  `setCols` models the rule's `set` mapping. -/
structure Rule where
  detect_any_header : List String
  wide_to_long : Option ReshapeSpec
  parse_feature : Option ParseFeature
  rename : List (String × String)
  setCols : List (String × Val)
  derived : List (String × Formula)

/-- The loaded configuration: providers in declaration order plus the
canonical schema (`required`, `defaults`). -/
structure Config where
  providers : List (String × Rule)
  required : List String
  defaults : List (String × Val)

/-- Provider detection loop body: first provider whose `detect_any_header`
set meets the frame's header set. -/
def detectFrom (cols : List String) : List (String × Rule) → Option String
  | [] => none
  | (n, r) :: rest =>
    if cols.any (fun h => decide (h ∈ r.detect_any_header)) then some n
    else detectFrom cols rest

/-- `detect_provider` of ingest.py lines 38–44. -/
def detect_provider (df : Frame) (cfg : Config) : Option String :=
  detectFrom df.cols cfg.providers

/-! ### `wide_to_long` (ingest.py lines 46–57) -/

/-- One output row of `pd.melt`: the id columns' values, the source column
name under `var_name`, that column's cell under `value_name`. -/
def meltRow (idVars : List String) (varName valueName : String) (c : String) (r : Row) : Row :=
  idVars.map (fun i => (i, getCell r i)) ++ [(varName, .vStr c), (valueName, getCell r c)]

/-- The string content of a variable-column cell (melt writes column names
there, so the cell is always a string in the paths exercised). -/
def strOfVal : Val → String
  | .vStr s => s
  | _ => ""

/-- `parse_feature`: extract capture groups from the variable column
(concatenated to the right of each row, new columns appended), then assign
the constant columns. -/
def applyFeature (pf : ParseFeature) (varName : String) (df : Frame) : Frame :=
  let withG : Frame :=
    { cols := df.cols ++ pf.groups,
      rows := df.rows.map (fun r => r ++ pf.groups.zip (pf.extract (strOfVal (getCell r varName)))) }
  pf.setCols.foldl (fun d kv => setCol d kv.1 kv.2) withG

/-- `wide_to_long`: melt (value variables are all columns outside
`id_vars`, in column order; pandas emits the output column-major), then the
optional feature extraction.  An `id_vars` entry absent from the frame (a
configuration error pandas rejects with `KeyError`) is not modelled; no
claim exercises it. -/
def wide_to_long (df : Frame) (rule : Rule) (sp : ReshapeSpec) : Frame :=
  let valueVars := df.cols.filter (fun c => decide (c ∉ sp.id_vars))
  let long : Frame :=
    { cols := sp.id_vars ++ [sp.var_name, sp.value_name],
      rows := valueVars.flatMap (fun c => df.rows.map (meltRow sp.id_vars sp.var_name sp.value_name c)) }
  match rule.parse_feature with
  | some pf => applyFeature pf sp.var_name long
  | none => long

/-! ### `normalize_df` (ingest.py lines 59–87) -/

/-- `df.rename(columns=m)`: unmapped labels pass through. -/
def renameCols (df : Frame) (m : List (String × String)) : Frame :=
  { cols := df.cols.map (fun c => ((m.lookup c).getD c)),
    rows := df.rows.map (fun r => r.map (fun p => (((m.lookup p.1).getD p.1), p.2))) }

/-- The `safe_locals` construction of ingest.py line 68: a name is bound
iff it is a frame column AND occurs as a substring of the formula text
(`c in expr` is Python substring containment on strings). -/
def derivedEnv (df : Frame) (t : String) (c : String) : Option (List Val) :=
  if c ∈ df.cols ∧ isSubstr c t = true then some (df.rows.map (fun r => getCell r c))
  else none

/-- Column-vector assignment `df[k] = series` (one cell per row). -/
def assignSeries (df : Frame) (k : String) (cells : List Val) : Frame :=
  { cols := if k ∈ df.cols then df.cols else df.cols ++ [k],
    rows := df.rows.zipWith (fun r v => setCell r k v) cells }

/-- One derived column: evaluate the formula once over the whole frame
(CPython evaluates the vectorized expression a single time, so an unbound
name raises even on a frame with zero rows), then assign the result.  A
scalar result broadcasts; a Series result must be aligned.  A bare bound
method as the result (never produced by a real formula) is not modelled as
a storable cell and is mapped to `TypeError`. -/
def applyDerived (df : Frame) (newCol : String) (f : Formula) : Except PyErr Frame :=
  match evalPy (derivedEnv df f.text) f.ast with
  | .error e => .error e
  | .ok (.pyScalar s) => .ok (setCol df newCol s)
  | .ok (.pySeries cells) =>
    if cells.length = df.rows.length then .ok (assignSeries df newCol cells)
    else .error .lengthError
  | .ok (.pyMethod _ _) => .error .typeError

/-- The `derived` loop of `normalize_df`, in rule declaration order. -/
def applyDeriveds (df : Frame) : List (String × Formula) → Except PyErr Frame
  | [] => .ok df
  | (k, f) :: rest =>
    match applyDerived df k f with
    | .error e => .error e
    | .ok df' => applyDeriveds df' rest

/-- Canonical default fill: add each configured default column when absent. -/
def fillDefaults (df : Frame) (defaults : List (String × Val)) : Frame :=
  defaults.foldl (fun d kv => if kv.1 ∈ d.cols then d else setCol d kv.1 kv.2) df

/-- Everything a frame-level failure can carry. -/
inductive IngestErr where
  | unsupportedFormat (ext : String)
  | noProvider
  | missingFields (missing : List String)
  | derivedError (e : PyErr)
  | keyError
  | valueCastError
  deriving DecidableEq

/-- Append-if-absent union of column name lists (pandas concat column
union; also used for the deduplicated `keep` list, whose Python `set`
order is process-dependent — column order is semantically a set here). -/
def addCols (acc : List String) (cs : List String) : List String :=
  cs.foldl (fun a c => if c ∈ a then a else a ++ [c]) acc

/-- The projection allow-list of ingest.py lines 82–86: required columns,
default columns and the fixed passthrough identity columns, restricted to
columns present. -/
def keepList (cfg : Config) (cols : List String) : List String :=
  (addCols [] (cfg.required ++ cfg.defaults.map Prod.fst ++
    ["session_id", "subject_id", "activity", "unit", "metric"])).filter
    (fun c => decide (c ∈ cols))

/-- `df[keep].copy()`. -/
def project (df : Frame) (cfg : Config) : Frame :=
  let keep := keepList cfg df.cols
  { cols := keep, rows := df.rows.map (fun r => keep.map (fun c => (c, getCell r c))) }

/-- The stages of `normalize_df` before the required-field check: reshape,
rename, `set`, derived columns, canonical default fill. -/
def preCheck (df : Frame) (provider : String) (cfg : Config) : Except IngestErr Frame :=
  match cfg.providers.lookup provider with
  | none => .error .keyError
  | some rule =>
    let df1 := match rule.wide_to_long with
      | some sp => wide_to_long df rule sp
      | none => df
    let df2 := renameCols df1 rule.rename
    let df3 := rule.setCols.foldl (fun d kv => setCol d kv.1 kv.2) df2
    match applyDeriveds df3 rule.derived with
    | .error e => .error (.derivedError e)
    | .ok df4 => .ok (fillDefaults df4 cfg.defaults)

/-- `normalize_df`: the pre-check stages, then the required-field check
(`[c for c in need if c not in df.columns]`, raising with exactly that
list), then the projection. -/
def normalize_df (df : Frame) (provider : String) (cfg : Config) : Except IngestErr Frame :=
  match preCheck df provider cfg with
  | .error e => .error e
  | .ok df5 =>
    let missing := cfg.required.filter (fun c => decide (c ∉ df5.cols))
    if missing = [] then .ok (project df5 cfg) else .error (.missingFields missing)

/-! ### Unit normalization (ingest.py lines 123–130; migrate tool lines 28–33) -/

/-- The exact rational value of the IEEE-754 double `3.141592653589793`
(ingest.py line 129), which is also the double `math.pi` used by the bulk
migration tool: the two sources share one conversion constant. -/
def piF64 : ℚ := 884279719003555 / 281474976710656

/-- `str.lower()`, modelled character-wise (the targets compared against
are ASCII). -/
def lowerStr (s : String) : String := String.mk (s.data.map Char.toLower)

/-- `series.astype(str).str.lower().eq(t)` on one cell, for the targets
"angle" / "rad" used here: a string cell compares after lowercasing; a
float stringifies to digits and NaN stringifies to "nan", so non-string
cells never equal these targets. -/
def lowerEq (v : Val) (t : String) : Bool :=
  match v with
  | .vStr s => decide (lowerStr s = t)
  | _ => false

/-- The shared row predicate of both call sites: `metric` lowercases to
"angle" and `unit` lowercases to "rad". -/
def maskRow (r : Row) : Bool :=
  lowerEq (getCell r "metric") "angle" && lowerEq (getCell r "unit") "rad"

/-- The shared transform on one row: a masked row has its value multiplied
by `180 / piF64` and its unit set to "deg"; an unmasked row passes through.
`astype(float)` leaves NaN as NaN; a non-numeric string cell would raise
there (numeric-string parsing is not modelled — no claim exercises
string-typed `value` cells). -/
def convertRow (r : Row) : Except IngestErr Row :=
  if maskRow r then
    match getCell r "value" with
    | .vNum q => .ok (setCell (setCell r "value" (.vNum (q * 180 / piF64))) "unit" (.vStr "deg"))
    | .vNone => .ok (setCell r "unit" (.vStr "deg"))
    | .vStr _ => .error .valueCastError
  else .ok r

/-- Error-propagating list map (the vectorized masked assignment, read
row-wise). -/
def mapExcept (f : α → Except ε β) : List α → Except ε (List β)
  | [] => .ok []
  | a :: l =>
    match f a with
    | .error e => .error e
    | .ok b =>
      match mapExcept f l with
      | .error e => .error e
      | .ok bs => .ok (b :: bs)

/-- The inline unit-normalization block of `main` (ingest.py lines
123–130): guarded on the presence of the `metric` and `unit` columns; when
any row matches, `.loc[mask, "value"]` raises `KeyError` if `value` is not
a column, otherwise the masked rows are rewritten. -/
def inlineUnitNormalize (df : Frame) : Except IngestErr Frame :=
  if "metric" ∈ df.cols ∧ "unit" ∈ df.cols then
    if df.rows.any maskRow then
      if "value" ∈ df.cols then
        match mapExcept convertRow df.rows with
        | .error e => .error e
        | .ok rows' => .ok { df with rows := rows' }
      else .error .keyError
    else .ok df
  else .ok df

/-- The bulk migration of `src/tools/migrate_units_to_deg.py`: early return
on an empty store, early return when `metric`/`unit`/`value` are not all
present, otherwise the same predicate and transform as the inline call
site; the reported count is the number of masked rows (`mask.sum()`). -/
def bulkMigrate (store : Frame) : Except IngestErr (Frame × Nat) :=
  if store.rows = [] then .ok (store, 0)
  else if "metric" ∈ store.cols ∧ "unit" ∈ store.cols ∧ "value" ∈ store.cols then
    if store.rows.any maskRow then
      match mapExcept convertRow store.rows with
      | .error e => .error e
      | .ok rows' => .ok ({ store with rows := rows' }, (store.rows.filter maskRow).length)
    else .ok (store, 0)
  else .ok (store, 0)

/-! ### The ingestion ledger (ingest.py lines 89–99) -/

/-- Python whitespace (the characters `str.strip` removes). -/
def pySpace (c : Char) : Bool :=
  c == ' ' || c == '\t' || c == '\n' || c == '\r' || c == '\x0b' || c == '\x0c'

/-- `str.strip()`. -/
def stripChars (l : List Char) : List Char :=
  ((l.dropWhile pySpace).reverse.dropWhile pySpace).reverse

/-- Split on newline separators.  On content consisting of
newline-terminated lines (all the ledger ever holds) this differs from
`str.splitlines` only by a final empty chunk, which the caller's
`if x.strip()` filter removes. -/
def splitNL : List Char → List (List Char)
  | [] => [[]]
  | c :: rest =>
    if c = '\n' then [] :: splitNL rest
    else
      match splitNL rest with
      | [] => [[c]]
      | l :: ls => (c :: l) :: ls

/-- `load_hashes`: the stripped, non-empty lines of the ledger file (a
missing file reads as empty content).  Python's `set` is modelled by the
list with membership. -/
def loadHashes (content : List Char) : List (List Char) :=
  ((splitNL content).map stripChars).filter (fun l => decide (l ≠ []))

/-- `save_hash`: append the hash and a newline. -/
def saveHash (content : List Char) (h : List Char) : List Char :=
  content ++ h ++ ['\n']

/-- A SHA-256 hex digest as written and read back: non-empty,
strip-invariant, and free of line separators. -/
def validHash (h : List Char) : Prop :=
  h ≠ [] ∧ stripChars h = h ∧ '\n' ∉ h ∧ '\r' ∉ h

instance (h : List Char) : Decidable (validHash h) := by
  unfold validHash; infer_instance

/-- The ledger-file invariant `save_hash` maintains: empty, or
newline-terminated. -/
def validLedger (content : List Char) : Prop :=
  content = [] ∨ content.getLast? = some '\n'

instance (content : List Char) : Decidable (validLedger content) := by
  unfold validLedger; infer_instance

/-! ### The main loop (ingest.py lines 101–175) -/

/-- One inbox file as the frame reader delivers it: its name, the SHA-256
of its bytes, and the reader's outcome (`.error` for `UnsupportedFormat`
or a parse failure). -/
structure FileInput where
  name : String
  hash : List Char
  frames : Except String (List Frame)

/-- The persistent state: the ledger file's content and the primary store
(`None` when `measurements.csv` does not exist). -/
structure DBState where
  ledger : List Char
  store : Option Frame

/-- The per-file frame loop of `main`: detect, normalize, unit-normalize
and stamp each frame in order, appending each result to the batch output
list as it is produced.  The first failing frame stops the file: the
frames already appended are KEPT (they were already pushed onto `outputs`
when the exception fires), and the second component reports whether the
whole file succeeded (which gates `save_hash`). -/
def processFrames (cfg : Config) (h : List Char) (nm : String) : List Frame → List Frame × Bool
  | [] => ([], true)
  | df :: rest =>
    match detect_provider df cfg with
    | none => ([], false)
    | some prov =>
      match normalize_df df prov cfg with
      | .error _ => ([], false)
      | .ok norm =>
        match inlineUnitNormalize norm with
        | .error _ => ([], false)
        | .ok norm2 =>
          let norm3 := setCol (setCol norm2 "source_hash" (.vStr (String.mk h)))
            "source_file" (.vStr nm)
          let res := processFrames cfg h nm rest
          (norm3 :: res.1, res.2)

/-- One file through the `try` block: a reader failure contributes nothing;
otherwise the frame loop runs. -/
def processFile (cfg : Config) (f : FileInput) : List Frame × Bool :=
  match f.frames with
  | .error _ => ([], false)
  | .ok dfs => processFrames cfg f.hash f.name dfs

/-- The file loop of `main`: `seen` is loaded once before the loop and not
updated during it (exactly as in the source); a seen hash skips the file;
otherwise the file is processed, its hash appended to the ledger only on
full success, and its produced frames appended to the batch outputs. -/
def runFiles (cfg : Config) (seen : List (List Char)) :
    List FileInput → List Char → List Frame × List Char
  | [], led => ([], led)
  | f :: rest, led =>
    if f.hash ∈ seen then runFiles cfg seen rest led
    else
      let pr := processFile cfg f
      let led1 := if pr.2 then saveHash led f.hash else led
      let res := runFiles cfg seen rest led1
      (pr.1 ++ res.1, res.2)

/-- `pd.concat`: rows concatenated in order, columns unioned in order
(missing cells read as NaN through `getCell`). -/
def concatFrames (fs : List Frame) : Frame :=
  { cols := fs.foldl (fun a fr => addCols a fr.cols) [],
    rows := fs.flatMap Frame.rows }

/-- The dedup key of ingest.py line 163: the candidate columns, restricted
to those present, in the fixed candidate order. -/
def dedupKeyCols (cols : List String) : List String :=
  (["timestamp", "joint", "metric", "value", "source_hash"] : List String).filter
    (fun c => decide (c ∈ cols))

/-- A row's dedup key: its cells at the key columns. -/
def rowKey (kc : List String) (r : Row) : List Val := kc.map (getCell r)

/-- `drop_duplicates(subset=keys, keep="last")`: a row survives iff no
later row has the same key. -/
def keepLast {α κ : Type} [DecidableEq κ] (key : α → κ) : List α → List α
  | [] => []
  | x :: rest =>
    if rest.any (fun y => decide (key y = key x)) then keepLast key rest
    else x :: keepLast key rest

/-- The store merge of ingest.py lines 156–164 applied to the concatenated
rows (existing store first, new rows after). -/
def mergeRows (cols : List String) (rows : List Row) : List Row :=
  keepLast (rowKey (dedupKeyCols cols)) rows

/-- The frame `main` deduplicates and persists: the batch outputs
concatenated after the existing store when one exists
(`pd.concat([existing, out])`). -/
def combinedStore (cfg : Config) (files : List FileInput) (st : DBState) : Frame :=
  let res := runFiles cfg (loadHashes st.ledger) files st.ledger
  let newF := concatFrames res.1
  match st.store with
  | some old => concatFrames [old, newF]
  | none => newF

/-- `main`: load the seen-set, run the file loop, and when the batch
produced anything, concatenate it (after the existing store when present),
dedup keeping the last occurrence and persist.  With no new outputs the
store file is left as it is (the Parquet mirror regeneration is
non-authoritative and not modelled). -/
def runIngest (cfg : Config) (files : List FileInput) (st : DBState) : DBState :=
  let res := runFiles cfg (loadHashes st.ledger) files st.ledger
  if res.1 = [] then { st with ledger := res.2 }
  else
    let combined := combinedStore cfg files st
    { ledger := res.2,
      store := some { cols := combined.cols, rows := mergeRows combined.cols combined.rows } }

/-- The rows of the store, empty when the store file is absent. -/
def storeRows (st : DBState) : List Row :=
  match st.store with
  | some fr => fr.rows
  | none => []

/-- The columns of the store, empty when the store file is absent. -/
def storeCols (st : DBState) : List String :=
  match st.store with
  | some fr => fr.cols
  | none => []

/-- The last element of a list whose key is `k` (the survivor
`drop_duplicates(keep="last")` retains for that key). -/
def lastWith {α κ : Type} [DecidableEq κ] (key : α → κ) (k : κ) : List α → Option α
  | [] => none
  | a :: t =>
    match lastWith key k t with
    | some y => some y
    | none => if key a = k then some a else none

/-! ### Concrete inputs used by witnesses and counterexamples -/

/-- A minimal provider rule detecting on a `timestamp` header. -/
def ruleA : Rule :=
  { detect_any_header := ["timestamp"], wide_to_long := none, parse_feature := none,
    rename := [], setCols := [], derived := [] }

/-- A configuration with the single provider `provA` and required column
`timestamp`. -/
def cfgA : Config :=
  { providers := [("provA", ruleA)], required := ["timestamp"], defaults := [] }

/-- A frame `provA` accepts. -/
def frameOK : Frame := { cols := ["timestamp"], rows := [[("timestamp", .vNum 1)]] }

/-- A frame no provider of `cfgA` detects. -/
def frameBad : Frame := { cols := ["other"], rows := [[("other", .vNum 2)]] }

/-- A two-frame workbook whose first frame normalizes and whose second
fails provider detection. -/
def fileC1 : FileInput :=
  { name := "f1.xlsx", hash := ['a', 'b'], frames := .ok [frameOK, frameBad] }

/-- A provider rule detecting on a `metric` header. -/
def ruleB : Rule :=
  { detect_any_header := ["metric"], wide_to_long := none, parse_feature := none,
    rename := [], setCols := [], derived := [] }

/-- A configuration with the full canonical required set. -/
def cfgB : Config :=
  { providers := [("provB", ruleB)],
    required := ["timestamp", "joint", "metric", "value"], defaults := [] }

/-- A frame carrying one angle row in radians (with a NaN value, as a
missing sample would read) and one unmasked numeric row. -/
def frameAngle : Frame :=
  { cols := ["timestamp", "joint", "metric", "value", "unit"],
    rows := [[("timestamp", .vNum 0), ("joint", .vStr "knee"), ("metric", .vStr "Angle"),
      ("value", .vNone), ("unit", .vStr "RAD")],
      [("timestamp", .vNum 1), ("joint", .vStr "knee"), ("metric", .vStr "pos"),
      ("value", .vNum 3), ("unit", .vStr "m")]] }

/-- A single-frame file wrapping `frameAngle`. -/
def fileB : FileInput := { name := "b.csv", hash := ['c', 'd'], frames := .ok [frameAngle] }

/-- A two-row single-column frame for exercising the formula evaluator. -/
def dfC6 : Frame :=
  { cols := ["value"], rows := [[("value", .vNum (-2))], [("value", .vNum 3)]] }

/-- The formula `value.abs()`: an attribute access followed by a call,
both expressible under `eval` with emptied builtins. -/
def formulaC6 : Formula :=
  { text := "value.abs()", ast := .call0 (.attr (.name "value") "abs") }

/-- The store columns of the dedup witness. -/
def cols5 : List String := ["timestamp", "joint", "metric", "value", "source_hash"]

/-- An existing store row. -/
def rowE : Row :=
  [("timestamp", .vNum 0), ("joint", .vStr "k"), ("metric", .vStr "angle"),
   ("value", .vNum 1), ("source_hash", .vStr "h1")]

/-- The same observation re-ingested from a different source file: it
differs from `rowE` only in `source_hash`. -/
def rowN : Row := setCell rowE "source_hash" (.vStr "h2")

/-- A one-id-column wide frame for the reshape witness. -/
def frameWide : Frame :=
  { cols := ["t", "a", "b"], rows := [[("t", .vNum 0), ("a", .vNum 1), ("b", .vNum 2)]] }

/-- A reshape spec with one id column. -/
def spW : ReshapeSpec := { id_vars := ["t"], var_name := "variable", value_name := "value" }

/-- A provider rule for the reshape witness. -/
def ruleW : Rule :=
  { detect_any_header := ["t"], wide_to_long := some spW, parse_feature := none,
    rename := [], setCols := [], derived := [] }

/-- Decidable equality of `Except` outcomes, used to evaluate the model on
concrete inputs. -/
instance {ε α : Type} [DecidableEq ε] [DecidableEq α] : DecidableEq (Except ε α) := fun a b =>
  match a, b with
  | .ok x, .ok y =>
    if h : x = y then .isTrue (by rw [h]) else .isFalse (fun hc => h (Except.ok.inj hc))
  | .error e, .error e' =>
    if h : e = e' then .isTrue (by rw [h]) else .isFalse (fun hc => h (Except.error.inj hc))
  | .ok _, .error _ => .isFalse (fun hc => Except.noConfusion hc)
  | .error _, .ok _ => .isFalse (fun hc => Except.noConfusion hc)

/-- The frame `frameAngle` after the inline unit normalization (computed
from the model itself). -/
def frameAngleDeg : Frame :=
  match inlineUnitNormalize frameAngle with
  | .ok f => f
  | .error _ => frameAngle

/-- The store produced by ingesting `fileB` into an empty state (computed
from the model itself). -/
def storeB : Frame :=
  match (runIngest cfgB [fileB] { ledger := [], store := none }).store with
  | some fr => fr
  | none => { cols := [], rows := [] }

/-- A configuration with two providers whose detection sets both match a
`timestamp` header (exercising the declaration-order tie-break). -/
def cfgDup : Config :=
  { providers := [("provA", ruleA), ("provZ", ruleA)],
    required := ["timestamp"], defaults := [] }

/-! ### Cell access lemmas -/

theorem lookupVal_setCell_self (r : Row) (k : String) (v : Val) :
    lookupVal (setCell r k v) k = some v := by
  induction r with
  | nil => simp [setCell, lookupVal]
  | cons p rest ih =>
    obtain ⟨c, w⟩ := p
    by_cases h : c = k
    · subst h; simp [setCell, lookupVal]
    · simp [setCell, h, lookupVal, ih]

theorem getCell_setCell_self (r : Row) (k : String) (v : Val) :
    getCell (setCell r k v) k = v := by
  simp [getCell, lookupVal_setCell_self]

theorem lookupVal_setCell_ne (r : Row) (k c : String) (v : Val) (h : c ≠ k) :
    lookupVal (setCell r k v) c = lookupVal r c := by
  have hkc : k ≠ c := fun h' => h h'.symm
  induction r with
  | nil => simp [setCell, lookupVal, hkc]
  | cons p rest ih =>
    obtain ⟨c', w⟩ := p
    by_cases h' : c' = k
    · subst h'; simp [setCell, lookupVal, hkc]
    · simp [setCell, h', lookupVal, ih]

theorem getCell_setCell_ne (r : Row) (k c : String) (v : Val) (h : c ≠ k) :
    getCell (setCell r k v) c = getCell r c := by
  simp [getCell, lookupVal_setCell_ne r k c v h]

theorem lookupVal_eq_none_of_forall (r : Row) (c : String) (h : ∀ p ∈ r, p.1 ≠ c) :
    lookupVal r c = none := by
  induction r with
  | nil => rfl
  | cons p rest ih =>
    obtain ⟨c', w⟩ := p
    have hne : c' ≠ c := h (c', w) (by simp)
    simp only [lookupVal, if_neg hne]
    exact ih (fun p hp => h p (by simp [hp]))

theorem getCell_eq_vNone_of_forall (r : Row) (c : String) (h : ∀ p ∈ r, p.1 ≠ c) :
    getCell r c = .vNone := by
  simp [getCell, lookupVal_eq_none_of_forall r c h]

/-! ### mapExcept lemmas -/

theorem mapExcept_ok_forall₂ {α β ε : Type} {f : α → Except ε β} :
    ∀ {l : List α} {l' : List β}, mapExcept f l = .ok l' →
      List.Forall₂ (fun x y => f x = .ok y) l l' := by
  intro l
  induction l with
  | nil => intro l' h; simp [mapExcept] at h; subst h; exact .nil
  | cons a t ih =>
    intro l' h
    simp only [mapExcept] at h
    cases hfa : f a with
    | error e => rw [hfa] at h; exact absurd h (by simp)
    | ok b =>
      rw [hfa] at h
      cases hrest : mapExcept f t with
      | error e => rw [hrest] at h; exact absurd h (by simp)
      | ok bs =>
        rw [hrest] at h
        simp only [Except.ok.injEq] at h
        subst h
        exact .cons hfa (ih hrest)

theorem mapExcept_ok_length {α β ε : Type} {f : α → Except ε β} {l : List α} {l' : List β}
    (h : mapExcept f l = .ok l') : l'.length = l.length :=
  (mapExcept_ok_forall₂ h).length_eq.symm

theorem mapExcept_ok_mem {α β ε : Type} {f : α → Except ε β} :
    ∀ {l : List α} {l' : List β}, mapExcept f l = .ok l' →
      ∀ y ∈ l', ∃ x ∈ l, f x = .ok y := by
  intro l
  induction l with
  | nil =>
    intro l' h y hy
    simp [mapExcept] at h; subst h; simp at hy
  | cons a t ih =>
    intro l' h y hy
    simp only [mapExcept] at h
    cases hfa : f a with
    | error e => rw [hfa] at h; exact absurd h (by simp)
    | ok b =>
      rw [hfa] at h
      cases hrest : mapExcept f t with
      | error e => rw [hrest] at h; exact absurd h (by simp)
      | ok bs =>
        rw [hrest] at h
        simp only [Except.ok.injEq] at h
        subst h
        rcases List.mem_cons.mp hy with h1 | h2
        · subst h1; exact ⟨a, by simp, hfa⟩
        · obtain ⟨x, hx, hfx⟩ := ih hrest y h2
          exact ⟨x, by simp [hx], hfx⟩

/-! ### lastWith and keepLast lemmas -/

theorem lastWith_eq_none_of_forall {α κ : Type} [DecidableEq κ] (key : α → κ) (k : κ)
    {l : List α} (h : ∀ a ∈ l, key a ≠ k) : lastWith key k l = none := by
  induction l with
  | nil => rfl
  | cons a t ih =>
    have ht : lastWith key k t = none := ih (fun x hx => h x (by simp [hx]))
    simp only [lastWith, ht, if_neg (h a (by simp))]

theorem forall_of_lastWith_eq_none {α κ : Type} [DecidableEq κ] (key : α → κ) (k : κ) :
    ∀ {l : List α}, lastWith key k l = none → ∀ a ∈ l, key a ≠ k := by
  intro l
  induction l with
  | nil => intro _ a ha; simp at ha
  | cons a t ih =>
    intro h x hx
    simp only [lastWith] at h
    cases ht : lastWith key k t with
    | some y => rw [ht] at h; exact absurd h (by simp)
    | none =>
      rw [ht] at h
      by_cases hk : key a = k
      · rw [if_pos hk] at h; exact absurd h (by simp)
      · rcases List.mem_cons.mp hx with h1 | h2
        · subst h1; exact hk
        · exact ih ht x h2

theorem lastWith_mem {α κ : Type} [DecidableEq κ] (key : α → κ) (k : κ) :
    ∀ {l : List α} {y : α}, lastWith key k l = some y → y ∈ l ∧ key y = k := by
  intro l
  induction l with
  | nil => intro y h; simp [lastWith] at h
  | cons a t ih =>
    intro y h
    simp only [lastWith] at h
    cases ht : lastWith key k t with
    | some z =>
      rw [ht] at h
      simp only [Option.some.injEq] at h
      subst h
      obtain ⟨h1, h2⟩ := ih ht
      exact ⟨by simp [h1], h2⟩
    | none =>
      rw [ht] at h
      by_cases hk : key a = k
      · rw [if_pos hk] at h
        simp only [Option.some.injEq] at h
        subst h
        exact ⟨by simp, hk⟩
      · rw [if_neg hk] at h; exact absurd h (by simp)

theorem lastWith_append_of_some {α κ : Type} [DecidableEq κ] (key : α → κ) (k : κ)
    (l1 : List α) {l2 : List α} {y : α} (h : lastWith key k l2 = some y) :
    lastWith key k (l1 ++ l2) = some y := by
  induction l1 with
  | nil => simpa using h
  | cons a t ih =>
    rw [List.cons_append]
    simp only [lastWith, ih]

theorem lastWith_append_of_none {α κ : Type} [DecidableEq κ] (key : α → κ) (k : κ)
    (l1 : List α) {l2 : List α} (h : lastWith key k l2 = none) :
    lastWith key k (l1 ++ l2) = lastWith key k l1 := by
  induction l1 with
  | nil => simpa using h
  | cons a t ih =>
    rw [List.cons_append]
    simp only [lastWith, ih]

theorem keepLast_subset {α κ : Type} [DecidableEq κ] (key : α → κ) :
    ∀ {l : List α} {x : α}, x ∈ keepLast key l → x ∈ l := by
  intro l
  induction l with
  | nil => intro x h; simp [keepLast] at h
  | cons a t ih =>
    intro x h
    simp only [keepLast] at h
    by_cases hany : t.any (fun y => decide (key y = key a))
    · rw [if_pos hany] at h; exact by simp [ih h]
    · rw [if_neg hany] at h
      rcases List.mem_cons.mp h with h1 | h2
      · subst h1; simp
      · simp [ih h2]

theorem mem_keepLast {α κ : Type} [DecidableEq κ] (key : α → κ) :
    ∀ {l : List α} {x : α}, x ∈ keepLast key l ↔ lastWith key (key x) l = some x := by
  intro l
  induction l with
  | nil => intro x; simp [keepLast, lastWith]
  | cons a t ih =>
    intro x
    simp only [keepLast, lastWith]
    by_cases hany : t.any (fun y => decide (key y = key a))
    · rw [if_pos hany]
      obtain ⟨b, hb, hkb⟩ := List.any_eq_true.mp hany
      have hkb' : key b = key a := of_decide_eq_true hkb
      constructor
      · intro hx
        have hlx := ih.mp hx
        rw [hlx]
      · intro hx
        cases ht : lastWith key (key x) t with
        | some y =>
          rw [ht] at hx
          have hyx : y = x := by injection hx
          rw [hyx] at ht
          exact ih.mpr ht
        | none =>
          rw [ht] at hx
          by_cases hk : key a = key x
          · exfalso
            have := forall_of_lastWith_eq_none key (key x) ht b hb
            rw [hkb', hk] at this
            exact this rfl
          · rw [if_neg hk] at hx; exact absurd hx (by simp)
    · rw [if_neg hany]
      have hforall : ∀ y ∈ t, key y ≠ key a := by
        intro y hy hc
        exact hany (List.any_eq_true.mpr ⟨y, hy, decide_eq_true hc⟩)
      constructor
      · intro hx
        rcases List.mem_cons.mp hx with h1 | h2
        · subst h1
          rw [lastWith_eq_none_of_forall key (key x) hforall, if_pos rfl]
        · have hlx := ih.mp h2
          rw [hlx]
      · intro hx
        cases ht : lastWith key (key x) t with
        | some y =>
          rw [ht] at hx
          have hyx : y = x := by injection hx
          rw [hyx] at ht
          exact List.mem_cons.mpr (Or.inr (ih.mpr ht))
        | none =>
          rw [ht] at hx
          by_cases hk : key a = key x
          · rw [if_pos hk] at hx
            simp only [Option.some.injEq] at hx
            subst hx
            simp
          · rw [if_neg hk] at hx; exact absurd hx (by simp)

theorem keepLast_pairwise {α κ : Type} [DecidableEq κ] (key : α → κ) :
    ∀ (l : List α), (keepLast key l).Pairwise (fun a b => key a ≠ key b) := by
  intro l
  induction l with
  | nil => exact .nil
  | cons a t ih =>
    simp only [keepLast]
    by_cases hany : t.any (fun y => decide (key y = key a))
    · rw [if_pos hany]; exact ih
    · rw [if_neg hany]
      have hforall : ∀ y ∈ t, key y ≠ key a := by
        intro y hy hc
        exact hany (List.any_eq_true.mpr ⟨y, hy, decide_eq_true hc⟩)
      exact List.Pairwise.cons
        (fun b hb hc => hforall b (keepLast_subset key hb) hc.symm) ih

theorem keepLast_nodup {α κ : Type} [DecidableEq κ] (key : α → κ) (l : List α) :
    (keepLast key l).Nodup :=
  (keepLast_pairwise key l).imp (fun h hc => h (by rw [hc]))

theorem lastWith_keepLast {α κ : Type} [DecidableEq κ] (key : α → κ) (k : κ) :
    ∀ (l : List α), lastWith key k (keepLast key l) = lastWith key k l := by
  intro l
  induction l with
  | nil => rfl
  | cons a t ih =>
    simp only [keepLast, lastWith]
    by_cases hany : t.any (fun y => decide (key y = key a))
    · rw [if_pos hany]
      obtain ⟨b, hb, hkb⟩ := List.any_eq_true.mp hany
      have hkb' : key b = key a := of_decide_eq_true hkb
      rw [ih]
      cases ht : lastWith key k t with
      | some y => rfl
      | none =>
        by_cases hk : key a = k
        · exfalso
          have := forall_of_lastWith_eq_none key k ht b hb
          rw [hkb', hk] at this
          exact this rfl
        · rw [if_neg hk]
    · rw [if_neg hany]
      simp only [lastWith, ih]

theorem lastWith_eq_of_unique {α κ : Type} [DecidableEq κ] (key : α → κ) {l : List α}
    {y : α} (hy : y ∈ l) (huniq : ∀ x ∈ l, key x = key y → x = y) :
    lastWith key (key y) l = some y := by
  induction l with
  | nil => simp at hy
  | cons a t ih =>
    simp only [lastWith]
    cases ht : lastWith key (key y) t with
    | some z =>
      obtain ⟨hz, hkz⟩ := lastWith_mem key (key y) ht
      have := huniq z (by simp [hz]) hkz
      rw [this]
    | none =>
      rcases List.mem_cons.mp hy with h1 | h2
      · subst h1; rw [if_pos rfl]
      · exact absurd rfl (forall_of_lastWith_eq_none key (key y) ht y h2)

theorem lastWith_filter_self {α κ : Type} [DecidableEq κ] (key : α → κ) (k : κ) :
    ∀ (l : List α),
      lastWith key k (l.filter (fun z => decide (key z = k))) = lastWith key k l := by
  intro l
  induction l with
  | nil => rfl
  | cons a t ih =>
    by_cases hk : key a = k
    · rw [List.filter_cons_of_pos (by simpa using hk)]
      simp only [lastWith, ih]
    · rw [List.filter_cons_of_neg (by simpa using hk), ih]
      cases ht : lastWith key k t with
      | some y => simp only [lastWith, ht]
      | none => simp only [lastWith, ht, if_neg hk]

theorem lastWith_congr_of_filter_eq {α κ : Type} [DecidableEq κ] (key : α → κ) (k : κ)
    {X Y : List α}
    (h : X.filter (fun z => decide (key z = k)) = Y.filter (fun z => decide (key z = k))) :
    lastWith key k X = lastWith key k Y := by
  rw [← lastWith_filter_self key k X, ← lastWith_filter_self key k Y, h]

theorem keepLast_absorb {α κ : Type} [DecidableEq κ] (key : α → κ) (X Y : List α)
    (H : ∀ k : κ, (∃ y ∈ Y, key y = k) →
      X.filter (fun z => decide (key z = k)) = Y.filter (fun z => decide (key z = k))) :
    List.Perm (keepLast key (keepLast key X ++ Y)) (keepLast key X) := by
  apply (List.perm_ext_iff_of_nodup (keepLast_nodup key _) (keepLast_nodup key _)).mpr
  intro x
  rw [mem_keepLast, mem_keepLast]
  by_cases hY : ∃ y ∈ Y, key y = key x
  · have hLW : lastWith key (key x) X = lastWith key (key x) Y :=
      lastWith_congr_of_filter_eq key (key x) (H (key x) hY)
    obtain ⟨y0, hy0, hky0⟩ := hY
    cases hYl : lastWith key (key x) Y with
    | none => exact absurd hky0 (forall_of_lastWith_eq_none key (key x) hYl y0 hy0)
    | some w =>
      rw [lastWith_append_of_some key (key x) _ hYl, hLW, hYl]
  · have hYnone : lastWith key (key x) Y = none :=
      lastWith_eq_none_of_forall key (key x) (fun a ha hk => hY ⟨a, ha, hk⟩)
    rw [lastWith_append_of_none key (key x) _ hYnone, lastWith_keepLast]

/-! ### Ledger lemmas -/

theorem splitNL_ne_nil : ∀ (l : List Char), splitNL l ≠ [] := by
  intro l
  induction l with
  | nil => simp [splitNL]
  | cons c t ih =>
    simp only [splitNL]
    by_cases hc : c = '\n'
    · simp [hc]
    · rw [if_neg hc]
      cases h : splitNL t with
      | nil => simp
      | cons l ls => simp

theorem eq_nil_of_splitNL {l : List Char} (h : splitNL l = [[]]) : l = [] := by
  cases l with
  | nil => rfl
  | cons c t =>
    exfalso
    simp only [splitNL] at h
    by_cases hc : c = '\n'
    · rw [if_pos hc] at h
      have h2 : splitNL t = [] := by injection h
      exact splitNL_ne_nil t h2
    · rw [if_neg hc] at h
      cases ht : splitNL t with
      | nil => exact splitNL_ne_nil t ht
      | cons l ls => rw [ht] at h; simp at h

theorem splitNL_append_newline {H : List Char} (hH : '\n' ∉ H) (ys : List Char) :
    splitNL (H ++ '\n' :: ys) = H :: splitNL ys := by
  induction H with
  | nil => simp [splitNL]
  | cons c t ih =>
    have hc : c ≠ '\n' := fun h => hH (by simp [h])
    have ht : '\n' ∉ t := fun h => hH (by simp [h])
    rw [List.cons_append]
    simp only [splitNL, if_neg hc, ih ht]

theorem splitNL_cons (c : Char) (t : List Char) :
    splitNL (c :: t) =
      if c = '\n' then [] :: splitNL t
      else
        match splitNL t with
        | [] => [[c]]
        | l :: ls => (c :: l) :: ls := rfl

theorem splitNL_lastLine : ∀ {L : List Char}, validLedger L → (splitNL L).getLast? = some [] := by
  intro L
  induction L with
  | nil => intro _; rfl
  | cons c t ih =>
    intro h
    have hlast : (c :: t).getLast? = some '\n' := by
      rcases h with h | h
      · exact absurd h (by simp)
      · exact h
    cases t with
    | nil =>
      have hc : c = '\n' := by simpa using hlast
      subst hc
      rfl
    | cons d u =>
      have ht : validLedger (d :: u) := by
        right
        rw [List.getLast?_cons_cons] at hlast
        exact hlast
      have iht := ih ht
      by_cases hc : c = '\n'
      · rw [splitNL_cons, if_pos hc]
        cases hsp : splitNL (d :: u) with
        | nil => exact absurd hsp (splitNL_ne_nil _)
        | cons l ls =>
          rw [hsp] at iht
          rw [List.getLast?_cons_cons]
          exact iht
      · rw [splitNL_cons, if_neg hc]
        cases hsp : splitNL (d :: u) with
        | nil => exact absurd hsp (splitNL_ne_nil _)
        | cons l ls =>
          rw [hsp] at iht
          cases ls with
          | nil =>
            simp only [List.getLast?_singleton, Option.some.injEq] at iht
            subst iht
            exact absurd (eq_nil_of_splitNL hsp) (by simp)
          | cons m ms =>
            show ((c :: l) :: m :: ms).getLast? = some []
            rw [List.getLast?_cons_cons]
            rw [List.getLast?_cons_cons] at iht
            exact iht

theorem splitNL_saveHash : ∀ {L : List Char}, validLedger L → ∀ {H : List Char}, '\n' ∉ H →
    splitNL (L ++ H ++ ['\n']) = (splitNL L).dropLast ++ [H, []] := by
  intro L
  induction L with
  | nil =>
    intro _ H hH
    rw [List.nil_append]
    have h1 : H ++ ['\n'] = H ++ '\n' :: ([] : List Char) := rfl
    rw [h1, splitNL_append_newline hH]
    rfl
  | cons c t ih =>
    intro h H hH
    cases t with
    | nil =>
      have hc : c = '\n' := by
        rcases h with h | h
        · exact absurd h (by simp)
        · simpa using h
      subst hc
      have hstep : (['\n'] ++ H) ++ ['\n'] = '\n' :: (H ++ '\n' :: ([] : List Char)) := by simp
      rw [hstep, splitNL_cons, if_pos rfl, splitNL_append_newline hH]
      rfl
    | cons d u =>
      have hlast : (c :: d :: u).getLast? = some '\n' := by
        rcases h with h | h
        · exact absurd h (by simp)
        · exact h
      have ht : validLedger (d :: u) := by
        right
        rw [List.getLast?_cons_cons] at hlast
        exact hlast
      have iht := ih ht hH
      have hstep : ((c :: d :: u) ++ H) ++ ['\n'] = c :: (((d :: u) ++ H) ++ ['\n']) := by simp
      by_cases hc : c = '\n'
      · rw [hstep, splitNL_cons, if_pos hc, iht]
        conv_rhs => rw [splitNL_cons, if_pos hc]
        cases hsp : splitNL (d :: u) with
        | nil => exact absurd hsp (splitNL_ne_nil _)
        | cons l ls => simp
      · rw [hstep, splitNL_cons, if_neg hc, iht]
        conv_rhs => rw [splitNL_cons, if_neg hc]
        cases hsp : splitNL (d :: u) with
        | nil => exact absurd hsp (splitNL_ne_nil _)
        | cons l ls =>
          cases ls with
          | nil =>
            have h1 := splitNL_lastLine ht
            rw [hsp] at h1
            simp only [List.getLast?_singleton, Option.some.injEq] at h1
            subst h1
            exact absurd (eq_nil_of_splitNL hsp) (by simp)
          | cons m ms => simp

theorem loadHashes_nil : loadHashes [] = [] := rfl

theorem validLedger_saveHash (L H : List Char) : validLedger (saveHash L H) := by
  right
  show ((L ++ H) ++ ['\n']).getLast? = some '\n'
  exact List.getLast?_concat _

theorem loadHashes_saveHash {L H : List Char} (hL : validLedger L) (hH : validHash H) :
    loadHashes (saveHash L H) = loadHashes L ++ [H] := by
  obtain ⟨hne, hstrip, hnl, _⟩ := hH
  have hsplit := splitNL_saveHash hL hnl
  have hg : (splitNL L).getLast (splitNL_ne_nil L) = [] := by
    have h1 := List.getLast?_eq_getLast (splitNL L) (splitNL_ne_nil L)
    rw [splitNL_lastLine hL] at h1
    exact (Option.some.inj h1).symm
  have hsp : splitNL L = (splitNL L).dropLast ++ [[]] := by
    conv_lhs => rw [← List.dropLast_append_getLast (splitNL_ne_nil L)]
    rw [hg]
  show ((splitNL (L ++ H ++ ['\n'])).map stripChars).filter (fun l => decide (l ≠ [])) = _
  rw [hsplit]
  unfold loadHashes
  conv_rhs => rw [hsp]
  simp only [List.map_append, List.filter_append, List.map_cons, List.map_nil, hstrip]
  have hsc : stripChars ([] : List Char) = [] := rfl
  rw [hsc]
  simp [List.filter_cons, List.filter_nil, hne]

/-! ### List utility lemmas -/

theorem mem_addCols : ∀ (cs acc : List String) (c : String),
    c ∈ addCols acc cs ↔ c ∈ acc ∨ c ∈ cs := by
  intro cs
  induction cs with
  | nil => intro acc c; simp [addCols]
  | cons d t ih =>
    intro acc c
    show c ∈ addCols (if d ∈ acc then acc else acc ++ [d]) t ↔ _
    rw [ih]
    by_cases hd : d ∈ acc
    · rw [if_pos hd]
      simp only [List.mem_cons]
      constructor
      · rintro (h | h)
        · exact Or.inl h
        · exact Or.inr (Or.inr h)
      · rintro (h | h | h)
        · exact Or.inl h
        · subst h; exact Or.inl hd
        · exact Or.inr h
    · rw [if_neg hd]
      simp only [List.mem_append, List.mem_singleton, List.mem_cons]
      tauto

theorem addCols_absorb : ∀ (cs acc : List String), (∀ c ∈ cs, c ∈ acc) →
    addCols acc cs = acc := by
  intro cs
  induction cs with
  | nil => intro acc _; rfl
  | cons d t ih =>
    intro acc h
    show addCols (if d ∈ acc then acc else acc ++ [d]) t = acc
    rw [if_pos (h d (by simp))]
    exact ih acc (fun c hc => h c (by simp [hc]))

theorem addCols_of_disjoint : ∀ (cs acc : List String), cs.Nodup →
    (∀ c ∈ cs, c ∉ acc) → addCols acc cs = acc ++ cs := by
  intro cs
  induction cs with
  | nil => intro acc _ _; simp [addCols]
  | cons d t ih =>
    intro acc hnd hdisj
    show addCols (if d ∈ acc then acc else acc ++ [d]) t = acc ++ d :: t
    rw [if_neg (hdisj d (by simp))]
    rw [ih (acc ++ [d]) (List.Nodup.of_cons hnd)]
    · simp
    · intro c hc
      simp only [List.mem_append, List.mem_singleton]
      rintro (h | h)
      · exact hdisj c (by simp [hc]) h
      · subst h
        exact (List.nodup_cons.mp hnd).1 hc

theorem addCols_nodup : ∀ (cs acc : List String), acc.Nodup → (addCols acc cs).Nodup := by
  intro cs
  induction cs with
  | nil => intro acc h; exact h
  | cons d t ih =>
    intro acc h
    show (addCols (if d ∈ acc then acc else acc ++ [d]) t).Nodup
    apply ih
    by_cases hd : d ∈ acc
    · rw [if_pos hd]; exact h
    · rw [if_neg hd]
      rw [List.nodup_append]
      refine ⟨h, List.nodup_singleton d, ?_⟩
      intro a ha had
      rw [List.mem_singleton] at had
      subst had
      exact hd ha

theorem mem_foldl_addCols : ∀ (fs : List Frame) (acc : List String) (c : String),
    c ∈ fs.foldl (fun a fr => addCols a fr.cols) acc ↔ c ∈ acc ∨ ∃ fr ∈ fs, c ∈ fr.cols := by
  intro fs
  induction fs with
  | nil => intro acc c; simp
  | cons f t ih =>
    intro acc c
    rw [List.foldl_cons, ih, mem_addCols]
    simp only [List.mem_cons]
    constructor
    · rintro ((h | h) | h)
      · exact Or.inl h
      · exact Or.inr ⟨f, by simp, h⟩
      · obtain ⟨fr, hfr, hc⟩ := h
        exact Or.inr ⟨fr, by simp [hfr], hc⟩
    · rintro (h | ⟨fr, hfr, hc⟩)
      · exact Or.inl (Or.inl h)
      · rcases hfr with h1 | h2
        · subst h1; exact Or.inl (Or.inr hc)
        · exact Or.inr ⟨fr, h2, hc⟩

theorem foldl_addCols_nodup : ∀ (fs : List Frame) (acc : List String), acc.Nodup →
    (fs.foldl (fun a fr => addCols a fr.cols) acc).Nodup := by
  intro fs
  induction fs with
  | nil => intro acc h; exact h
  | cons f t ih =>
    intro acc h
    rw [List.foldl_cons]
    exact ih _ (addCols_nodup _ _ h)

theorem map_eq_map_imp {α β : Type} :
    ∀ {l : List α} {f g : α → β}, l.map f = l.map g → ∀ a ∈ l, f a = g a := by
  intro l
  induction l with
  | nil => intro f g _ a ha; simp at ha
  | cons a t ih =>
    intro f g h x hx
    simp only [List.map_cons, List.cons.injEq] at h
    rcases List.mem_cons.mp hx with h1 | h2
    · subst h1; exact h.1
    · exact ih h.2 x h2

theorem filter_flatMap {α β : Type} (p : β → Bool) : ∀ (l : List α) (g : α → List β),
    (l.flatMap g).filter p = l.flatMap (fun a => (g a).filter p) := by
  intro l g
  induction l with
  | nil => rfl
  | cons a t ih => simp [List.flatMap_cons, List.filter_append, ih]

/-! ### Frame-operation lemmas -/

theorem mem_setCol_self (df : Frame) (k : String) (v : Val) : k ∈ (setCol df k v).cols := by
  unfold setCol
  by_cases h : k ∈ df.cols
  · simpa [if_pos h] using h
  · simp [if_neg h]

theorem mem_setCol_of_mem (df : Frame) (k c : String) (v : Val) (h : c ∈ df.cols) :
    c ∈ (setCol df k v).cols := by
  unfold setCol
  by_cases hk : k ∈ df.cols
  · simpa [if_pos hk] using h
  · simp [if_neg hk, h]

theorem project_wf (df : Frame) (cfg : Config) : WFFrame (project df cfg) := by
  intro r hr p hp
  simp only [project, List.mem_map] at hr
  obtain ⟨r0, _, hr0⟩ := hr
  subst hr0
  simp only [List.mem_map] at hp
  obtain ⟨c, hc, hcp⟩ := hp
  subst hcp
  exact hc

theorem normalize_df_wf {df : Frame} {prov : String} {cfg : Config} {out : Frame}
    (h : normalize_df df prov cfg = .ok out) : WFFrame out := by
  unfold normalize_df at h
  cases hpc : preCheck df prov cfg with
  | error e => rw [hpc] at h; exact absurd h (by simp)
  | ok df5 =>
    rw [hpc] at h
    dsimp only at h
    by_cases hm : (cfg.required.filter fun c => decide (c ∉ df5.cols)) = []
    · rw [if_pos hm] at h
      have hout : out = project df5 cfg := (Except.ok.inj h).symm
      subst hout
      exact project_wf df5 cfg
    · rw [if_neg hm] at h; exact absurd h (by simp)

/-! ### Unit-normalization lemmas -/

theorem convertRow_mask_false {r r' : Row} (h : convertRow r = .ok r') :
    maskRow r' = false := by
  unfold convertRow at h
  by_cases hm : maskRow r
  · rw [if_pos hm] at h
    cases hv : getCell r "value" with
    | vNum q =>
      rw [hv] at h
      have hr' : r' = setCell (setCell r "value" (.vNum (q * 180 / piF64))) "unit" (.vStr "deg") :=
        (Except.ok.inj h).symm
      subst hr'
      unfold maskRow
      rw [getCell_setCell_self]
      have hdeg : lowerEq (Val.vStr "deg") "rad" = false := by decide
      rw [hdeg, Bool.and_false]
    | vNone =>
      rw [hv] at h
      have hr' : r' = setCell r "unit" (.vStr "deg") := (Except.ok.inj h).symm
      subst hr'
      unfold maskRow
      rw [getCell_setCell_self]
      have hdeg : lowerEq (Val.vStr "deg") "rad" = false := by decide
      rw [hdeg, Bool.and_false]
    | vStr s => rw [hv] at h; exact absurd h (by simp)
  · rw [if_neg hm] at h
    have hr' : r' = r := (Except.ok.inj h).symm
    subst hr'
    simpa using hm

theorem convertRow_of_mask_true {r r' : Row} (hm : maskRow r = true)
    (h : convertRow r = .ok r') :
    getCell r' "unit" = .vStr "deg" ∧
    ∀ q : ℚ, getCell r "value" = .vNum q → getCell r' "value" = .vNum (q * 180 / piF64) := by
  unfold convertRow at h
  rw [if_pos hm] at h
  cases hv : getCell r "value" with
  | vNum q =>
    rw [hv] at h
    have hr' : r' = setCell (setCell r "value" (.vNum (q * 180 / piF64))) "unit" (.vStr "deg") :=
      (Except.ok.inj h).symm
    subst hr'
    refine ⟨getCell_setCell_self _ _ _, ?_⟩
    intro q' hq'
    have hqq : q' = q := by
      have h2 : q = q' := by injection hq'
      exact h2.symm
    rw [hqq, getCell_setCell_ne (setCell r "value" (Val.vNum (q * 180 / piF64))) "unit" "value"
      (Val.vStr "deg") (by decide), getCell_setCell_self]
  | vNone =>
    rw [hv] at h
    have hr' : r' = setCell r "unit" (.vStr "deg") := (Except.ok.inj h).symm
    subst hr'
    refine ⟨getCell_setCell_self _ _ _, ?_⟩
    intro q' hq'
    exact absurd hq' (by simp)
  | vStr s => rw [hv] at h; exact absurd h (by simp)

theorem convertRow_of_mask_false {r r' : Row} (hm : maskRow r = false)
    (h : convertRow r = .ok r') : r' = r := by
  unfold convertRow at h
  rw [if_neg (by simp [hm])] at h
  exact (Except.ok.inj h).symm

theorem maskRow_stamp (r : Row) (h1 h2 : Val) :
    maskRow (setCell (setCell r "source_hash" h1) "source_file" h2) = maskRow r := by
  unfold maskRow
  rw [getCell_setCell_ne (setCell r "source_hash" h1) "source_file" "metric" h2 (by decide),
      getCell_setCell_ne (setCell r "source_hash" h1) "source_file" "unit" h2 (by decide),
      getCell_setCell_ne r "source_hash" "metric" h1 (by decide),
      getCell_setCell_ne r "source_hash" "unit" h1 (by decide)]

theorem inlineUnitNormalize_mask_false {df df' : Frame} (hwf : WFFrame df)
    (h : inlineUnitNormalize df = .ok df') : ∀ r ∈ df'.rows, maskRow r = false := by
  unfold inlineUnitNormalize at h
  by_cases hg : "metric" ∈ df.cols ∧ "unit" ∈ df.cols
  · rw [if_pos hg] at h
    by_cases hany : df.rows.any maskRow
    · rw [if_pos hany] at h
      by_cases hval : "value" ∈ df.cols
      · rw [if_pos hval] at h
        cases hmap : mapExcept convertRow df.rows with
        | error e => rw [hmap] at h; exact absurd h (by simp)
        | ok rows' =>
          rw [hmap] at h
          have hdf' : df' = { df with rows := rows' } := (Except.ok.inj h).symm
          subst hdf'
          intro r hr
          obtain ⟨x, _, hx⟩ := mapExcept_ok_mem hmap r hr
          exact convertRow_mask_false hx
      · rw [if_neg hval] at h; exact absurd h (by simp)
    · rw [if_neg hany] at h
      have hdf' : df' = df := (Except.ok.inj h).symm
      subst hdf'
      intro r hr
      by_contra hcon
      exact hany (List.any_eq_true.mpr ⟨r, hr, by simpa using hcon⟩)
  · rw [if_neg hg] at h
    have hdf' : df' = df := (Except.ok.inj h).symm
    subst hdf'
    intro r hr
    unfold maskRow
    rcases not_and_or.mp hg with hmc | huc
    · have hnone : getCell r "metric" = .vNone :=
        getCell_eq_vNone_of_forall r _ (fun p hp hc => hmc (hc ▸ hwf r hr p hp))
      rw [hnone]
      simp [lowerEq]
    · have hnone : getCell r "unit" = .vNone :=
        getCell_eq_vNone_of_forall r _ (fun p hp hc => huc (hc ▸ hwf r hr p hp))
      rw [hnone]
      simp [lowerEq]

/-! ### processFrames and runFiles lemmas -/

theorem processFrames_mem {cfg : Config} {h : List Char} {nm : String} :
    ∀ {dfs : List Frame} {fr : Frame}, fr ∈ (processFrames cfg h nm dfs).1 →
      ∃ df prov norm norm2, detect_provider df cfg = some prov ∧
        normalize_df df prov cfg = .ok norm ∧ inlineUnitNormalize norm = .ok norm2 ∧
        fr = setCol (setCol norm2 "source_hash" (.vStr (String.mk h)))
          "source_file" (.vStr nm) := by
  intro dfs
  induction dfs with
  | nil => intro fr hfr; simp [processFrames] at hfr
  | cons df rest ih =>
    intro fr hfr
    simp only [processFrames] at hfr
    cases hdet : detect_provider df cfg with
    | none => rw [hdet] at hfr; simp at hfr
    | some prov =>
      rw [hdet] at hfr
      dsimp only at hfr
      cases hnorm : normalize_df df prov cfg with
      | error e => rw [hnorm] at hfr; simp at hfr
      | ok norm =>
        rw [hnorm] at hfr
        dsimp only at hfr
        cases hinl : inlineUnitNormalize norm with
        | error e => rw [hinl] at hfr; simp at hfr
        | ok norm2 =>
          rw [hinl] at hfr
          dsimp only at hfr
          rcases List.mem_cons.mp hfr with h1 | h2
          · exact ⟨df, prov, norm, norm2, hdet, hnorm, hinl, h1⟩
          · exact ih h2

theorem stamped_sourceHash {norm2 : Frame} {hsh : List Char} {nm : String} {r : Row}
    (hr : r ∈ (setCol (setCol norm2 "source_hash" (.vStr (String.mk hsh)))
      "source_file" (.vStr nm)).rows) :
    getCell r "source_hash" = .vStr (String.mk hsh) := by
  simp only [setCol, List.map_map, List.mem_map] at hr
  obtain ⟨r0, _, hr0⟩ := hr
  subst hr0
  simp only [Function.comp_apply]
  rw [getCell_setCell_ne (setCell r0 "source_hash" (.vStr (String.mk hsh)))
    "source_file" "source_hash" (.vStr nm) (by decide)]
  exact getCell_setCell_self r0 _ _

theorem processFrames_sourceHash {cfg : Config} {hsh : List Char} {nm : String}
    {dfs : List Frame} {fr : Frame} (hfr : fr ∈ (processFrames cfg hsh nm dfs).1) :
    "source_hash" ∈ fr.cols ∧
      ∀ r ∈ fr.rows, getCell r "source_hash" = .vStr (String.mk hsh) := by
  obtain ⟨df, prov, norm, norm2, _, _, _, hfr_eq⟩ := processFrames_mem hfr
  subst hfr_eq
  constructor
  · exact mem_setCol_of_mem _ _ _ _ (mem_setCol_self _ _ _)
  · intro r hr
    exact stamped_sourceHash hr

theorem processFrames_mask_false {cfg : Config} {hsh : List Char} {nm : String}
    {dfs : List Frame} {fr : Frame} (hfr : fr ∈ (processFrames cfg hsh nm dfs).1) :
    ∀ r ∈ fr.rows, maskRow r = false := by
  obtain ⟨df, prov, norm, norm2, _, hnorm, hinl, hfr_eq⟩ := processFrames_mem hfr
  subst hfr_eq
  intro r hr
  simp only [setCol, List.map_map, List.mem_map] at hr
  obtain ⟨r0, hr0, hr0eq⟩ := hr
  subst hr0eq
  simp only [Function.comp_apply]
  rw [maskRow_stamp]
  exact inlineUnitNormalize_mask_false (normalize_df_wf hnorm) hinl r0 hr0

theorem runFiles_fst (cfg : Config) (seen : List (List Char)) :
    ∀ (files : List FileInput) (led : List Char),
      (runFiles cfg seen files led).1 =
        files.flatMap (fun f => if f.hash ∈ seen then [] else (processFile cfg f).1) := by
  intro files
  induction files with
  | nil => intro led; rfl
  | cons f t ih =>
    intro t_led
    rw [List.flatMap_cons]
    by_cases hs : f.hash ∈ seen
    · simp only [runFiles, if_pos hs, ih]
      simp
    · simp only [runFiles, if_neg hs, ih]

theorem runFiles_append (cfg : Config) (seen : List (List Char)) :
    ∀ (l1 l2 : List FileInput) (led : List Char),
      runFiles cfg seen (l1 ++ l2) led =
        ((runFiles cfg seen l1 led).1 ++
            (runFiles cfg seen l2 (runFiles cfg seen l1 led).2).1,
          (runFiles cfg seen l2 (runFiles cfg seen l1 led).2).2) := by
  intro l1
  induction l1 with
  | nil => intro l2 led; simp [runFiles]
  | cons f t ih =>
    intro l2 led
    rw [List.cons_append]
    by_cases hs : f.hash ∈ seen
    · simp only [runFiles, if_pos hs, ih]
    · simp only [runFiles, if_neg hs, ih]
      simp [List.append_assoc]

theorem mapExcept_ok_get {α β ε : Type} {f : α → Except ε β} {l : List α} {l' : List β}
    (h : mapExcept f l = .ok l') :
    ∀ (i : ℕ) (hi : i < l.length) (hi' : i < l'.length),
      f (l.get ⟨i, hi⟩) = .ok (l'.get ⟨i, hi'⟩) :=
  (List.forall₂_iff_get.mp (mapExcept_ok_forall₂ h)).2

theorem flatMap_flatMap' {α β γ : Type} (l : List α) (g : α → List β) (k : β → List γ) :
    (l.flatMap g).flatMap k = l.flatMap (fun a => (g a).flatMap k) := by
  induction l with
  | nil => rfl
  | cons a t ih => simp [List.flatMap_cons, List.flatMap_append, ih]

theorem processFile_sourceHash_col {cfg : Config} {f : FileInput} {fr : Frame}
    (hfr : fr ∈ (processFile cfg f).1) : "source_hash" ∈ fr.cols := by
  unfold processFile at hfr
  cases hfrm : f.frames with
  | error e => rw [hfrm] at hfr; simp at hfr
  | ok dfs =>
    rw [hfrm] at hfr
    exact (processFrames_sourceHash hfr).1

theorem processFile_row_sourceHash {cfg : Config} {f : FileInput} {fr : Frame} {r : Row}
    (hfr : fr ∈ (processFile cfg f).1) (hr : r ∈ fr.rows) :
    getCell r "source_hash" = .vStr (String.mk f.hash) := by
  unfold processFile at hfr
  cases hfrm : f.frames with
  | error e => rw [hfrm] at hfr; simp at hfr
  | ok dfs =>
    rw [hfrm] at hfr
    exact (processFrames_sourceHash hfr).2 r hr

theorem processFile_row_mask {cfg : Config} {f : FileInput} {fr : Frame} {r : Row}
    (hfr : fr ∈ (processFile cfg f).1) (hr : r ∈ fr.rows) : maskRow r = false := by
  unfold processFile at hfr
  cases hfrm : f.frames with
  | error e => rw [hfrm] at hfr; simp at hfr
  | ok dfs =>
    rw [hfrm] at hfr
    exact processFrames_mask_false hfr r hr

/-! ### The conversion constant versus the real number pi -/

theorem piF64_real_pos : (0 : ℝ) < ((piF64 : ℚ) : ℝ) := by
  rw [piF64]
  push_cast
  norm_num

theorem piF64_lt_pi : ((piF64 : ℚ) : ℝ) < Real.pi := by
  have h1 : ((piF64 : ℚ) : ℝ) < 3.14159265358979323846 := by
    rw [piF64]
    push_cast
    norm_num
  exact h1.trans Real.pi_gt_d20

theorem pi_le_piF64_scaled : Real.pi ≤ ((piF64 : ℚ) : ℝ) * (1 + 1 / 1000000000) := by
  have h2 : (3.14159265358979323847 : ℝ) ≤ ((piF64 : ℚ) : ℝ) * (1 + 1 / 1000000000) := by
    rw [piF64]
    push_cast
    norm_num
  exact Real.pi_lt_d20.le.trans h2

theorem one_div_piF64_tolerance :
    |(1 : ℝ) / ((piF64 : ℚ) : ℝ) - 1 / Real.pi| ≤ (1 / 1000000000) * (1 / Real.pi) := by
  have hpi : (0 : ℝ) < Real.pi := Real.pi_pos
  have ha : (0 : ℝ) < ((piF64 : ℚ) : ℝ) := piF64_real_pos
  have hle : ((piF64 : ℚ) : ℝ) ≤ Real.pi := piF64_lt_pi.le
  have h1 : (1 : ℝ) / Real.pi ≤ 1 / ((piF64 : ℚ) : ℝ) := one_div_le_one_div_of_le ha hle
  rw [abs_of_nonneg (by linarith)]
  rw [div_sub_div 1 1 (ne_of_gt ha) (ne_of_gt hpi), div_le_iff₀ (by positivity)]
  have hmul : (1 / 1000000000 : ℝ) * (1 / Real.pi) * (((piF64 : ℚ) : ℝ) * Real.pi) =
      ((piF64 : ℚ) : ℝ) * (1 / 1000000000) := by
    field_simp
    ring
  rw [hmul]
  nlinarith [pi_le_piF64_scaled]

theorem unit_conversion_tolerance (q : ℚ) :
    |((q * 180 / piF64 : ℚ) : ℝ) - (q : ℝ) * 180 / Real.pi| ≤
      (1 / 1000000000) * |(q : ℝ) * 180 / Real.pi| := by
  have hpi : (0 : ℝ) < Real.pi := Real.pi_pos
  have hcast : ((q * 180 / piF64 : ℚ) : ℝ) = (q : ℝ) * 180 / ((piF64 : ℚ) : ℝ) := by
    push_cast
    ring
  rw [hcast]
  have hstep1 : (q : ℝ) * 180 / ((piF64 : ℚ) : ℝ) - (q : ℝ) * 180 / Real.pi =
      ((q : ℝ) * 180) * (1 / ((piF64 : ℚ) : ℝ) - 1 / Real.pi) := by
    ring
  have hstep2 : |(q : ℝ) * 180 / ((piF64 : ℚ) : ℝ) - (q : ℝ) * 180 / Real.pi| =
      |(q : ℝ)| * 180 * |1 / ((piF64 : ℚ) : ℝ) - 1 / Real.pi| := by
    rw [hstep1, abs_mul, abs_mul, abs_of_pos (by norm_num : (0 : ℝ) < 180)]
  have hstep3 : |(q : ℝ) * 180 / Real.pi| = |(q : ℝ)| * 180 * (1 / Real.pi) := by
    rw [div_eq_mul_inv, abs_mul, abs_mul, abs_of_pos (by norm_num : (0 : ℝ) < 180),
      abs_inv, abs_of_pos hpi, one_div]
  rw [hstep2, hstep3]
  have h180 : (0 : ℝ) ≤ |(q : ℝ)| * 180 := by positivity
  calc |(q : ℝ)| * 180 * |1 / ((piF64 : ℚ) : ℝ) - 1 / Real.pi|
      ≤ |(q : ℝ)| * 180 * ((1 / 1000000000) * (1 / Real.pi)) :=
        mul_le_mul_of_nonneg_left one_div_piF64_tolerance h180
    _ = (1 / 1000000000) * (|(q : ℝ)| * 180 * (1 / Real.pi)) := by ring

/-! ### Provider detection lemmas -/

theorem detectFrom_none_iff (cols : List String) :
    ∀ (ps : List (String × Rule)), detectFrom cols ps = none ↔
      ∀ p ∈ ps, ¬∃ hcol ∈ cols, hcol ∈ p.2.detect_any_header := by
  intro ps
  induction ps with
  | nil => simp [detectFrom]
  | cons p rest ih =>
    obtain ⟨m, rule⟩ := p
    simp only [detectFrom]
    by_cases hm : cols.any (fun h => decide (h ∈ rule.detect_any_header))
    · rw [if_pos hm]
      constructor
      · intro hcon; exact absurd hcon (by simp)
      · intro hall
        exfalso
        obtain ⟨hcol, hc, hmem⟩ := List.any_eq_true.mp hm
        exact hall (m, rule) (by simp) ⟨hcol, hc, of_decide_eq_true hmem⟩
    · rw [if_neg hm, ih]
      constructor
      · intro hall x hx
        rcases List.mem_cons.mp hx with h1 | h2
        · subst h1
          rintro ⟨hcol, hc, hmem⟩
          exact hm (List.any_eq_true.mpr ⟨hcol, hc, decide_eq_true hmem⟩)
        · exact hall x h2
      · intro hall x hx
        exact hall x (by simp [hx])

theorem detectFrom_some_iff (cols : List String) :
    ∀ (ps : List (String × Rule)) (n : String), detectFrom cols ps = some n ↔
      ∃ pre r post, ps = pre ++ (n, r) :: post ∧
        (∃ hcol ∈ cols, hcol ∈ r.detect_any_header) ∧
        ∀ p ∈ pre, ¬∃ hcol ∈ cols, hcol ∈ p.2.detect_any_header := by
  intro ps
  induction ps with
  | nil =>
    intro n
    constructor
    · intro hcon; simp [detectFrom] at hcon
    · rintro ⟨pre, r, post, heq, _, _⟩
      exact absurd heq (by simp)
  | cons p rest ih =>
    intro n
    obtain ⟨m, rule⟩ := p
    simp only [detectFrom]
    by_cases hm : cols.any (fun h => decide (h ∈ rule.detect_any_header))
    · rw [if_pos hm]
      constructor
      · intro hsome
        have hn : m = n := by injection hsome
        subst hn
        obtain ⟨hcol, hc, hmem⟩ := List.any_eq_true.mp hm
        exact ⟨[], rule, rest, rfl, ⟨hcol, hc, of_decide_eq_true hmem⟩, by simp⟩
      · rintro ⟨pre, r, post, heq, hmatch, hpre⟩
        cases pre with
        | nil =>
          rw [List.nil_append] at heq
          injection heq with ha _
          injection ha with hmn _
          rw [hmn]
        | cons p0 pre' =>
          injection heq with ha _
          exfalso
          obtain ⟨hcol, hc, hmem⟩ := List.any_eq_true.mp hm
          exact hpre p0 (by simp) (by rw [← ha]; exact ⟨hcol, hc, of_decide_eq_true hmem⟩)
    · rw [if_neg hm, ih n]
      constructor
      · rintro ⟨pre, r, post, heq, hmatch, hpre⟩
        refine ⟨(m, rule) :: pre, r, post, by rw [List.cons_append, heq], hmatch, ?_⟩
        intro x hx
        rcases List.mem_cons.mp hx with h1 | h2
        · subst h1
          rintro ⟨hcol, hc, hmem⟩
          exact hm (List.any_eq_true.mpr ⟨hcol, hc, decide_eq_true hmem⟩)
        · exact hpre x h2
      · rintro ⟨pre, r, post, heq, hmatch, hpre⟩
        cases pre with
        | nil =>
          exfalso
          rw [List.nil_append] at heq
          injection heq with ha _
          injection ha with _ hrr
          obtain ⟨hcol, hc, hmem⟩ := hmatch
          exact hm (List.any_eq_true.mpr ⟨hcol, hc, decide_eq_true (hrr ▸ hmem)⟩)
        | cons p0 pre' =>
          injection heq with ha hb
          exact ⟨pre', r, post, hb, hmatch, fun x hx => hpre x (by simp [hx])⟩

/-- Claim C7: provider detection iterates the configured providers in
declaration order and returns the first one whose `detect_any_header` set
has a non-empty intersection with the frame's headers — a frame whose
headers match two providers therefore always resolves to the
earlier-declared one — and returns no provider (an `Option.none`, a
recoverable frame-level condition rather than a crash) exactly when no
provider's set intersects the headers. -/
theorem c7_detect_provider_first_match (df : Frame) (cfg : Config) :
    (∀ n : String, detect_provider df cfg = some n ↔
      ∃ pre r post, cfg.providers = pre ++ (n, r) :: post ∧
        (∃ hcol ∈ df.cols, hcol ∈ r.detect_any_header) ∧
        ∀ p ∈ pre, ¬∃ hcol ∈ df.cols, hcol ∈ p.2.detect_any_header) ∧
    (detect_provider df cfg = none ↔
      ∀ p ∈ cfg.providers, ¬∃ hcol ∈ df.cols, hcol ∈ p.2.detect_any_header) :=
  ⟨fun n => detectFrom_some_iff df.cols cfg.providers n,
   detectFrom_none_iff df.cols cfg.providers⟩

/-- Claim C8: a frame that, after the pre-check stages (reshape, rename,
set, derive, default-fill), lacks required columns fails with exactly the
list of missing names in the order they are declared in the schema's
`required` list (the filter preserves that order), and a frame with every
required column present passes the check. -/
theorem c8_required_check (df : Frame) (prov : String) (cfg : Config) (df5 : Frame)
    (h : preCheck df prov cfg = .ok df5) :
    (cfg.required.filter (fun c => decide (c ∉ df5.cols)) ≠ [] →
      normalize_df df prov cfg =
        .error (.missingFields (cfg.required.filter (fun c => decide (c ∉ df5.cols))))) ∧
    ((∀ c ∈ cfg.required, c ∈ df5.cols) → ∃ out, normalize_df df prov cfg = .ok out) ∧
    (∀ c : String, c ∈ cfg.required.filter (fun c => decide (c ∉ df5.cols)) ↔
      c ∈ cfg.required ∧ c ∉ df5.cols) := by
  unfold normalize_df
  rw [h]
  dsimp only
  refine ⟨fun hm => by rw [if_neg hm], ?_, ?_⟩
  · intro hall
    have hm : cfg.required.filter (fun c => decide (c ∉ df5.cols)) = [] := by
      rw [List.filter_eq_nil_iff]
      intro a ha
      simpa using hall a ha
    rw [if_pos hm]
    exact ⟨_, rfl⟩
  · intro c
    simp [List.mem_filter]

/-- Claim C8 witness: `frameBad` misses `timestamp` and fails with exactly
that list; `frameOK` passes. -/
theorem c8_required_check_witness :
    normalize_df frameBad "provA" cfgA = .error (.missingFields ["timestamp"]) ∧
    ∃ out, normalize_df frameOK "provA" cfgA = .ok out := by
  constructor
  · exact (c8_required_check frameBad "provA" cfgA frameBad (by decide)).1 (by decide)
  · exact (c8_required_check frameOK "provA" cfgA frameOK (by decide)).2.1 (by decide)

/-- Claim C10: appending a hash and a newline to the ledger file
(`save_hash`) and loading it back (`load_hashes`) yields a set containing
the hash, so a marked file is seen on the next run.  The ledger content is
empty or newline-terminated (the invariant `save_hash` itself maintains)
and the hash is a well-formed digest line. -/
theorem c10_ledger_roundtrip (L h : List Char) (hL : validLedger L) (hh : validHash h) :
    h ∈ loadHashes (saveHash L h) := by
  rw [loadHashes_saveHash hL hh]
  simp

/-- Claim C10 witness at a concrete ledger and hash. -/
theorem c10_ledger_roundtrip_witness : ['a'] ∈ loadHashes (saveHash [] ['a']) :=
  c10_ledger_roundtrip [] ['a'] (Or.inl rfl) (by decide)

/-- Claim C9: a wide frame with one id column and k value columns reshapes
to exactly (row count × k) long rows, each carrying the id value, one
source column name as the variable value and that column's cell as the
value (the optional feature extraction, a separate step, is absent; the
three output column names are pairwise distinct, as in any sane reshape
spec). -/
theorem c9_reshape_arity (df : Frame) (rule : Rule) (sp : ReshapeSpec)
    (tcol : String) (vcols : List String)
    (hid : sp.id_vars = [tcol])
    (hcols : df.cols = tcol :: vcols)
    (hnotin : tcol ∉ vcols)
    (h1 : sp.var_name ≠ tcol) (h2 : sp.value_name ≠ tcol) (h3 : sp.value_name ≠ sp.var_name)
    (hpf : rule.parse_feature = none) :
    (wide_to_long df rule sp).rows.length = df.rows.length * vcols.length ∧
    ∀ row ∈ (wide_to_long df rule sp).rows, ∃ c ∈ vcols, ∃ r ∈ df.rows,
      getCell row tcol = getCell r tcol ∧ getCell row sp.var_name = .vStr c ∧
      getCell row sp.value_name = getCell r c := by
  have hvv : df.cols.filter (fun c => decide (c ∉ sp.id_vars)) = vcols := by
    rw [hcols, hid, List.filter_cons]
    have htf : (decide (tcol ∉ [tcol])) = false := by simp
    rw [htf]
    simp only [Bool.false_eq_true, if_false]
    rw [List.filter_eq_self]
    intro c hc
    have : c ≠ tcol := fun hcontra => hnotin (hcontra ▸ hc)
    simp [this]
  unfold wide_to_long
  rw [hpf]
  dsimp only
  rw [hvv]
  constructor
  · have hlen : ∀ (l : List String),
        (l.flatMap (fun c => df.rows.map
          (meltRow sp.id_vars sp.var_name sp.value_name c))).length =
          l.length * df.rows.length := by
      intro l
      induction l with
      | nil => simp
      | cons c t ih =>
        simp only [List.flatMap_cons, List.length_append, List.length_map, List.length_cons, ih]
        ring
    rw [hlen]
    exact Nat.mul_comm _ _
  · intro row hrow
    obtain ⟨c, hc, hmem⟩ := List.mem_flatMap.mp hrow
    obtain ⟨r, hr, hreq⟩ := List.mem_map.mp hmem
    subst hreq
    have n1 : tcol ≠ sp.var_name := Ne.symm h1
    have n2 : tcol ≠ sp.value_name := Ne.symm h2
    have n3 : sp.var_name ≠ sp.value_name := Ne.symm h3
    refine ⟨c, hc, r, hr, ?_, ?_, ?_⟩
    · simp [meltRow, hid, getCell, lookupVal]
    · simp [meltRow, hid, getCell, lookupVal, n1]
    · simp [meltRow, hid, getCell, lookupVal, n2, n3]

/-- Claim C9 witness: a one-row wide frame with id `t` and value columns
`a`, `b`. -/
theorem c9_reshape_arity_witness :
    (wide_to_long frameWide ruleW spW).rows.length =
      frameWide.rows.length * ["a", "b"].length :=
  (c9_reshape_arity frameWide ruleW spW "t" ["a", "b"] rfl rfl (by decide)
    (by decide) (by decide) (by decide) rfl).1

/-- Claim C6 (counterexample): the claim says the derived-column evaluator
exposes arithmetic operators only — no function calls, no attribute
access.  The source evaluates the formula with CPython's `eval`, only
emptying `__builtins__`; the formula text `value.abs()` (an attribute
access followed by a call, both inside the expression language and
independent of builtins) evaluates without error and its result is stored
in the derived column. -/
theorem c6_eval_counterexample :
    applyDerived dfC6 "out" formulaC6 =
      .ok { cols := ["value", "out"],
            rows := [[("value", .vNum (-2)), ("out", .vNum 2)],
                     [("value", .vNum 3), ("out", .vNum 3)]] } := by
  decide

/-- Claim C6 (amended): a formula's free variables are resolved only
against frame columns whose names occur in the formula text (the binding
test is substring containment), and a formula referencing an absent column
fails the frame with `NameError`; however the evaluator is CPython `eval`
with only `__builtins__` emptied, so attribute access and function calls
remain evaluable (witnessed by `value.abs()` evaluating to the
element-wise absolute value of the column). -/
theorem c6_derived_evaluator (t : String) :
    (∀ (df : Frame) (col s : String), s ∉ df.cols →
      applyDerived df col { text := t, ast := .name s } = .error .nameError) ∧
    (∀ (df : Frame) (c : String), ¬(c ∈ df.cols ∧ isSubstr c t = true) →
      derivedEnv df t c = none) ∧
    (∀ (df : Frame) (rest : List (String × Formula)) (k s : String), s ∉ df.cols →
      applyDeriveds df ((k, { text := t, ast := .name s }) :: rest) = .error .nameError) ∧
    evalPy (derivedEnv dfC6 formulaC6.text) formulaC6.ast =
      .ok (.pySeries [.vNum 2, .vNum 3]) := by
  have henv : ∀ (df : Frame) (s : String), s ∉ df.cols → derivedEnv df t s = none := by
    intro df s hs
    unfold derivedEnv
    rw [if_neg (fun hc => hs hc.1)]
  have happ : ∀ (df : Frame) (col s : String), s ∉ df.cols →
      applyDerived df col { text := t, ast := .name s } = .error .nameError := by
    intro df col s hs
    have heval : evalPy (derivedEnv df t) (.name s) = .error .nameError := by
      unfold evalPy
      rw [henv df s hs]
    unfold applyDerived
    dsimp only
    rw [heval]
  refine ⟨happ, ?_, ?_, ?_⟩
  · intro df c hc
    unfold derivedEnv
    rw [if_neg hc]
  · intro df rest k s hs
    unfold applyDeriveds
    rw [happ df k s hs]
  · decide

/-- Claim C6 witness: an unbound name fails the frame, a column absent from
the formula text is not bound, the failure also propagates through the
derived loop, and the attribute-plus-call formula still evaluates. -/
theorem c6_derived_evaluator_witness :
    applyDerived dfC6 "out" { text := "zz", ast := .name "zz" } = .error .nameError ∧
    derivedEnv dfC6 "zz" "value" = none ∧
    applyDeriveds dfC6 [("out", { text := "zz", ast := .name "zz" })] = .error .nameError ∧
    evalPy (derivedEnv dfC6 formulaC6.text) formulaC6.ast =
      .ok (.pySeries [.vNum 2, .vNum 3]) :=
  ⟨(c6_derived_evaluator "zz").1 dfC6 "out" "zz" (by decide),
   (c6_derived_evaluator "zz").2.1 dfC6 "value" (by decide),
   (c6_derived_evaluator "zz").2.2.1 dfC6 [] "out" "zz" (by decide),
   (c6_derived_evaluator "zz").2.2.2⟩

/-- Claim C2: in the inline unit-normalization step, every row whose
`metric` equals "angle" case-insensitively and whose `unit` equals "rad"
case-insensitively ends with unit "deg" and with its (numeric) value equal
to the original value times 180/π within relative tolerance 1e-9 (the code
multiplies by 180 divided by the double `3.141592653589793`); every other
row is unchanged.  The frame is pandas-well-formed and the step succeeded
(a masked row with a non-numeric value fails the whole file instead). -/
theorem c2_unit_normalization (df df' : Frame) (hwf : WFFrame df)
    (h : inlineUnitNormalize df = .ok df') :
    df'.rows.length = df.rows.length ∧
    ∀ (i : ℕ) (hi : i < df.rows.length) (hi' : i < df'.rows.length),
      (maskRow (df.rows.get ⟨i, hi⟩) = true →
        getCell (df'.rows.get ⟨i, hi'⟩) "unit" = .vStr "deg" ∧
        ∀ q : ℚ, getCell (df.rows.get ⟨i, hi⟩) "value" = .vNum q →
          ∃ q' : ℚ, getCell (df'.rows.get ⟨i, hi'⟩) "value" = .vNum q' ∧
            |(q' : ℝ) - (q : ℝ) * 180 / Real.pi| ≤
              (1 / 1000000000) * |(q : ℝ) * 180 / Real.pi|) ∧
      (maskRow (df.rows.get ⟨i, hi⟩) = false →
        df'.rows.get ⟨i, hi'⟩ = df.rows.get ⟨i, hi⟩) := by
  have hmaskout := inlineUnitNormalize_mask_false hwf h
  unfold inlineUnitNormalize at h
  by_cases hg : "metric" ∈ df.cols ∧ "unit" ∈ df.cols
  · rw [if_pos hg] at h
    by_cases hany : df.rows.any maskRow
    · rw [if_pos hany] at h
      by_cases hval : "value" ∈ df.cols
      · rw [if_pos hval] at h
        cases hmap : mapExcept convertRow df.rows with
        | error e => rw [hmap] at h; exact absurd h (by simp)
        | ok rows' =>
          rw [hmap] at h
          have hdf' : df' = { df with rows := rows' } := (Except.ok.inj h).symm
          subst hdf'
          refine ⟨mapExcept_ok_length hmap, ?_⟩
          intro i hi hi'
          have hconv := mapExcept_ok_get hmap i hi hi'
          constructor
          · intro hmask
            obtain ⟨hunit, hvalconv⟩ := convertRow_of_mask_true hmask hconv
            refine ⟨hunit, ?_⟩
            intro q hq
            exact ⟨q * 180 / piF64, hvalconv q hq, unit_conversion_tolerance q⟩
          · intro hmask
            exact convertRow_of_mask_false hmask hconv
      · rw [if_neg hval] at h; exact absurd h (by simp)
    · rw [if_neg hany] at h
      have hdfeq : df = df' := Except.ok.inj h
      subst hdfeq
      refine ⟨rfl, ?_⟩
      intro i hi hi'
      constructor
      · intro hmask
        have hfalse := hmaskout (df.rows.get ⟨i, hi⟩) (List.get_mem _ _ _)
        rw [hfalse] at hmask
        exact absurd hmask (by simp)
      · intro _; rfl
  · rw [if_neg hg] at h
    have hdfeq : df = df' := Except.ok.inj h
    subst hdfeq
    refine ⟨rfl, ?_⟩
    intro i hi hi'
    constructor
    · intro hmask
      have hfalse := hmaskout (df.rows.get ⟨i, hi⟩) (List.get_mem _ _ _)
      rw [hfalse] at hmask
      exact absurd hmask (by simp)
    · intro _; rfl

/-- Claim C2 witness: the angle/rad row of `frameAngle` is converted (the
hypotheses are discharged by evaluation; `frameAngleDeg` is the computed
output frame). -/
theorem c2_unit_normalization_witness :
    frameAngleDeg.rows.length = frameAngle.rows.length :=
  (c2_unit_normalization frameAngle frameAngleDeg (by decide) (by decide)).1

/-- Claim C5: after the merge (existing store rows, then the new batch,
deduplicated keeping the last occurrence per dedup key — the key columns
being timestamp, joint, metric, value, source_hash restricted to those
present), no two surviving records share a dedup key; any surviving record
whose key is carried by some new row is itself a new row (the newly merged
record wins every conflict); and a new row differing from an existing row
only in `source_hash` (a key column) survives together with, and distinct
from, the existing row, provided no third row shares either key. -/
theorem c5_dedup_merge (cols : List String) (E N : List Row) :
    (mergeRows cols (E ++ N)).Pairwise
      (fun a b => rowKey (dedupKeyCols cols) a ≠ rowKey (dedupKeyCols cols) b) ∧
    (∀ k : List Val, (∃ n ∈ N, rowKey (dedupKeyCols cols) n = k) →
      ∀ x ∈ mergeRows cols (E ++ N), rowKey (dedupKeyCols cols) x = k → x ∈ N) ∧
    (∀ (e : Row) (v : Val), e ∈ E → "source_hash" ∈ dedupKeyCols cols →
      v ≠ getCell e "source_hash" →
      (∀ x ∈ E ++ N, rowKey (dedupKeyCols cols) x = rowKey (dedupKeyCols cols) e → x = e) →
      (∀ x ∈ E ++ N, rowKey (dedupKeyCols cols) x =
        rowKey (dedupKeyCols cols) (setCell e "source_hash" v) →
          x = setCell e "source_hash" v) →
      setCell e "source_hash" v ∈ N →
      e ∈ mergeRows cols (E ++ N) ∧ setCell e "source_hash" v ∈ mergeRows cols (E ++ N) ∧
        e ≠ setCell e "source_hash" v) := by
  unfold mergeRows
  refine ⟨keepLast_pairwise _ _, ?_, ?_⟩
  · intro k hk x hx hkx
    obtain ⟨n, hn, hkn⟩ := hk
    have hlx := (mem_keepLast (rowKey (dedupKeyCols cols))).mp hx
    rw [hkx] at hlx
    cases hN : lastWith (rowKey (dedupKeyCols cols)) k N with
    | none => exact absurd hkn (forall_of_lastWith_eq_none _ _ hN n hn)
    | some y =>
      rw [lastWith_append_of_some _ _ E hN] at hlx
      have hyx : y = x := by injection hlx
      subst hyx
      exact (lastWith_mem _ _ hN).1
  · intro e v he hK hv huniq1 huniq2 hnN
    refine ⟨?_, ?_, ?_⟩
    · rw [mem_keepLast]
      exact lastWith_eq_of_unique (rowKey (dedupKeyCols cols))
        (List.mem_append.mpr (Or.inl he)) huniq1
    · rw [mem_keepLast]
      exact lastWith_eq_of_unique (rowKey (dedupKeyCols cols))
        (List.mem_append.mpr (Or.inr hnN)) huniq2
    · intro hc
      have hcell := congrArg (fun r => getCell r "source_hash") hc
      simp only at hcell
      rw [getCell_setCell_self] at hcell
      exact hv hcell.symm

/-- Claim C5 witness: a new row identical to a stored row except for its
`source_hash` is kept as a distinct record. -/
theorem c5_dedup_merge_witness :
    rowE ∈ mergeRows cols5 ([rowE] ++ [rowN]) ∧
      rowN ∈ mergeRows cols5 ([rowE] ++ [rowN]) ∧ rowE ≠ rowN :=
  (c5_dedup_merge cols5 [rowE] [rowN]).2.2 rowE (.vStr "h2") (by decide) (by decide)
    (by decide) (by decide) (by decide) (by decide)

/-- Claim C1 (counterexample): the claim says that when any frame of a
file fails normalization, no rows from ANY frame of that file — including
frames normalized earlier without error — are merged into the store.  In
the source, `outputs.append(norm)` runs per frame inside the `try` block
of `main`, and `outputs` is a batch-level buffer: for `fileC1` (whose
first frame normalizes and whose second frame fails provider detection),
the run merges frame 1's row into the store even though the file failed —
while, as the claim also says, the hash is withheld from the ledger. -/
theorem c1_partial_merge_counterexample :
    (runIngest cfgA [fileC1] { ledger := [], store := none }).store =
      some { cols := ["timestamp", "source_hash", "source_file"],
             rows := [[("timestamp", .vNum 1), ("source_hash", .vStr "ab"),
               ("source_file", .vStr "f1.xlsx")]] } ∧
    loadHashes (runIngest cfgA [fileC1] { ledger := [], store := none }).ledger = [] := by
  decide

/-- Claim C1 (amended): when any frame of a file fails (provider not
detected, a normalization error, or a unit-normalization error), the
file's hash is not appended to the ledger and processing continues with
the subsequent files; however the frames of that file processed BEFORE the
failing frame have already been appended to the batch outputs, so their
rows ARE merged into the store at the end of the run (a partial merge for
that file). -/
theorem c1_file_failure_behaviour (cfg : Config) (seen : List (List Char))
    (pre post : List FileInput) (f : FileInput) (led : List Char)
    (hns : f.hash ∉ seen) (hfail : (processFile cfg f).2 = false) :
    (runFiles cfg seen (pre ++ f :: post) led).1 =
      (runFiles cfg seen pre led).1 ++ (processFile cfg f).1 ++
        (runFiles cfg seen post (runFiles cfg seen pre led).2).1 ∧
    (runFiles cfg seen (pre ++ f :: post) led).2 =
      (runFiles cfg seen post (runFiles cfg seen pre led).2).2 := by
  rw [runFiles_append cfg seen pre (f :: post) led]
  simp only [runFiles, if_neg hns, hfail]
  simp [List.append_assoc]

/-- Claim C1 witness for the amended statement, at the concrete failing
file. -/
theorem c1_file_failure_behaviour_witness :
    (runFiles cfgA [] ([] ++ fileC1 :: []) []).1 =
      (runFiles cfgA [] [] []).1 ++ (processFile cfgA fileC1).1 ++
        (runFiles cfgA [] [] (runFiles cfgA [] [] []).2).1 ∧
    (runFiles cfgA [] ([] ++ fileC1 :: []) []).2 =
      (runFiles cfgA [] [] (runFiles cfgA [] [] []).2).2 :=
  c1_file_failure_behaviour cfgA [] [] [] fileC1 [] (by decide) (by decide)

/-- Claim C3: the inline ingestion call site and the standalone bulk
migration share one predicate (`metric` lowercases to "angle" and `unit`
to "rad" — the model's single `maskRow`) and one conversion constant (both
Python sources denote the double `3.141592653589793`, the model's single
`convertRow`), so on a store built by ingestion (whose rows have all
passed the inline normalization) the bulk migration changes zero rows and
returns the store unchanged. -/
theorem c3_bulk_migration_noop (cfg : Config) (files : List FileInput) (fr : Frame)
    (h : (runIngest cfg files { ledger := [], store := none }).store = some fr) :
    bulkMigrate fr = .ok (fr, 0) := by
  have hrows : ∀ r ∈ fr.rows, maskRow r = false := by
    intro r hr
    unfold runIngest at h
    dsimp only at h
    by_cases hout : (runFiles cfg (loadHashes []) files []).1 = []
    · rw [if_pos hout] at h
      exact absurd h (by simp)
    · rw [if_neg hout] at h
      simp only [Option.some.injEq] at h
      rw [← h] at hr
      dsimp only at hr
      have hsub := keepLast_subset (rowKey (dedupKeyCols
        (concatFrames (runFiles cfg (loadHashes []) files []).1).cols)) hr
      have hflat : r ∈ ((runFiles cfg (loadHashes []) files []).1).flatMap Frame.rows := hsub
      obtain ⟨fr', hfr', hrmem⟩ := List.mem_flatMap.mp hflat
      rw [runFiles_fst] at hfr'
      obtain ⟨f, hf, hfmem⟩ := List.mem_flatMap.mp hfr'
      by_cases hs : f.hash ∈ loadHashes ([] : List Char)
      · rw [if_pos hs] at hfmem; simp at hfmem
      · rw [if_neg hs] at hfmem
        exact processFile_row_mask hfmem hrmem
  unfold bulkMigrate
  by_cases h0 : fr.rows = []
  · rw [if_pos h0]
  · rw [if_neg h0]
    by_cases hcols : "metric" ∈ fr.cols ∧ "unit" ∈ fr.cols ∧ "value" ∈ fr.cols
    · rw [if_pos hcols]
      have hany : fr.rows.any maskRow = false :=
        List.any_eq_false.mpr (fun x hx => by simp [hrows x hx])
      rw [if_neg (by simp [hany])]
    · rw [if_neg hcols]

/-- Claim C3 witness: the store built by ingesting `fileB` from an empty
state is a fixed point of the bulk migration. -/
theorem c3_bulk_migration_noop_witness : bulkMigrate storeB = .ok (storeB, 0) :=
  c3_bulk_migration_noop cfgB [fileB] storeB (by decide)

/-! ### Run-level equations and the re-ingestion theorem -/

theorem runIngest_eq_of_nil (cfg : Config) (files : List FileInput) (st : DBState)
    (h : (runFiles cfg (loadHashes st.ledger) files st.ledger).1 = []) :
    runIngest cfg files st =
      { st with ledger := (runFiles cfg (loadHashes st.ledger) files st.ledger).2 } := by
  unfold runIngest
  dsimp only
  rw [if_pos h]

theorem runIngest_eq_of_ne (cfg : Config) (files : List FileInput) (st : DBState)
    (h : ¬(runFiles cfg (loadHashes st.ledger) files st.ledger).1 = []) :
    runIngest cfg files st =
      { ledger := (runFiles cfg (loadHashes st.ledger) files st.ledger).2,
        store := some
          { cols := (combinedStore cfg files st).cols,
            rows := mergeRows (combinedStore cfg files st).cols
              (combinedStore cfg files st).rows } } := by
  unfold runIngest
  dsimp only
  rw [if_neg h]

theorem combinedStore_none (cfg : Config) (files : List FileInput) (led : List Char) :
    combinedStore cfg files { ledger := led, store := none } =
      concatFrames (runFiles cfg (loadHashes led) files led).1 := rfl

theorem combinedStore_some (cfg : Config) (files : List FileInput) (led : List Char)
    (old : Frame) :
    combinedStore cfg files { ledger := led, store := some old } =
      concatFrames [old, concatFrames (runFiles cfg (loadHashes led) files led).1] := rfl

/-- Frames produced by a run over a non-empty seen-set are frames the
fresh run (empty seen-set) also produces: the per-file processing is
deterministic and the seen-set only filters files out. -/
theorem second_run_frames_subset (cfg : Config) (files : List FileInput)
    (seen2 : List (List Char)) (led1 led2 : List Char) {fr : Frame}
    (hfr : fr ∈ (runFiles cfg seen2 files led2).1) :
    fr ∈ (runFiles cfg (loadHashes []) files led1).1 := by
  rw [runFiles_fst] at hfr ⊢
  obtain ⟨f, hf, hmem⟩ := List.mem_flatMap.mp hfr
  by_cases hs : f.hash ∈ seen2
  · rw [if_pos hs] at hmem; simp at hmem
  · rw [if_neg hs] at hmem
    refine List.mem_flatMap.mpr ⟨f, hf, ?_⟩
    rw [if_neg (by simp [loadHashes_nil])]
    exact hmem

/-- For every dedup key carried by some second-run row, the first-run rows
and the second-run rows with that key coincide: the key contains the
source hash, rows with a given source hash come only from files with that
hash, and every such file (its hash being outside the second run's
seen-set) is re-processed identically in the second run. -/
theorem runs_filter_eq (cfg : Config) (files : List FileInput)
    (seen2 : List (List Char)) (led1 led2 : List Char) (KC : List String)
    (hsh : "source_hash" ∈ KC) (k : List Val)
    (hky0 : ∃ y ∈ (concatFrames (runFiles cfg seen2 files led2).1).rows, rowKey KC y = k) :
    ((concatFrames (runFiles cfg (loadHashes []) files led1).1).rows).filter
      (fun z => decide (rowKey KC z = k)) =
    ((concatFrames (runFiles cfg seen2 files led2).1).rows).filter
      (fun z => decide (rowKey KC z = k)) := by
  have hX : (concatFrames (runFiles cfg (loadHashes []) files led1).1).rows =
      files.flatMap (fun f => ((processFile cfg f).1).flatMap Frame.rows) := by
    show ((runFiles cfg (loadHashes []) files led1).1).flatMap Frame.rows = _
    rw [runFiles_fst, flatMap_flatMap']
    apply List.flatMap_congr
    intro f _
    rw [if_neg (by simp [loadHashes_nil])]
  have hY : (concatFrames (runFiles cfg seen2 files led2).1).rows =
      files.flatMap (fun f =>
        (if f.hash ∈ seen2 then [] else (processFile cfg f).1).flatMap Frame.rows) := by
    show ((runFiles cfg seen2 files led2).1).flatMap Frame.rows = _
    rw [runFiles_fst, flatMap_flatMap']
  obtain ⟨y, hy, hky⟩ := hky0
  rw [hY] at hy
  obtain ⟨g, _, hyg⟩ := List.mem_flatMap.mp hy
  by_cases hgs : g.hash ∈ seen2
  · rw [if_pos hgs] at hyg; simp at hyg
  · rw [if_neg hgs] at hyg
    obtain ⟨frg, hfrg, hyr⟩ := List.mem_flatMap.mp hyg
    have hysh : getCell y "source_hash" = .vStr (String.mk g.hash) :=
      processFile_row_sourceHash hfrg hyr
    rw [hX, hY, filter_flatMap, filter_flatMap]
    apply List.flatMap_congr
    intro f _
    by_cases hfs : f.hash ∈ seen2
    · rw [if_pos hfs]
      simp only [List.flatMap_nil, List.filter_nil]
      rw [List.filter_eq_nil_iff]
      intro x hx hpx
      obtain ⟨frx, hfrx, hxr⟩ := List.mem_flatMap.mp hx
      have hxsh := processFile_row_sourceHash hfrx hxr
      have hkx : rowKey KC x = k := of_decide_eq_true hpx
      have hmapeq : rowKey KC x = rowKey KC y := by rw [hkx, hky]
      have hcell : getCell x "source_hash" = getCell y "source_hash" :=
        map_eq_map_imp hmapeq "source_hash" hsh
      rw [hxsh, hysh] at hcell
      have hstr : String.mk f.hash = String.mk g.hash := by injection hcell
      have hhash : f.hash = g.hash := by injection hstr
      exact hgs (hhash ▸ hfs)
    · rw [if_neg hfs]

/-- Claim C4: ingesting the same set of files twice — the second run
seeing byte-identical files, the ledger written by the first run and the
store written by the first run — produces a store with the same presence,
identical columns and a permutation of the same rows as the single run's
store; merged stores are duplicate-free (claim C5's invariant), so the
permutation means identical row count and identical content.  Files whose
hash the first run recorded are skipped whole; files that failed are
re-processed deterministically and their rows are absorbed by the
keep-last dedup. -/
theorem c4_reingest_idempotent (cfg : Config) (files : List FileInput) :
    (runIngest cfg files (runIngest cfg files { ledger := [], store := none })).store.isSome =
      (runIngest cfg files { ledger := [], store := none }).store.isSome ∧
    storeCols (runIngest cfg files (runIngest cfg files { ledger := [], store := none })) =
      storeCols (runIngest cfg files { ledger := [], store := none }) ∧
    List.Perm
      (storeRows (runIngest cfg files (runIngest cfg files { ledger := [], store := none })))
      (storeRows (runIngest cfg files { ledger := [], store := none })) := by
  by_cases h1 : (runFiles cfg (loadHashes []) files []).1 = []
  · have hO1 : ∀ f ∈ files, (processFile cfg f).1 = [] := by
      rw [runFiles_fst] at h1
      intro f hf
      have hx := List.flatMap_eq_nil_iff.mp h1 f hf
      by_cases hs : f.hash ∈ loadHashes ([] : List Char)
      · exact absurd hs (by simp [loadHashes_nil])
      · rwa [if_neg hs] at hx
    have hall : ∀ (seen : List (List Char)) (led : List Char),
        (runFiles cfg seen files led).1 = [] := by
      intro seen led
      rw [runFiles_fst, List.flatMap_eq_nil_iff]
      intro f hf
      by_cases hs : f.hash ∈ seen
      · rw [if_pos hs]
      · rw [if_neg hs]; exact hO1 f hf
    have hst1 := runIngest_eq_of_nil cfg files { ledger := [], store := none } (hall _ _)
    have hst2 := runIngest_eq_of_nil cfg files
      (runIngest cfg files { ledger := [], store := none }) (hall _ _)
    rw [hst2, hst1]
    exact ⟨rfl, rfl, List.Perm.refl _⟩
  · have hst1 := runIngest_eq_of_ne cfg files { ledger := [], store := none } h1
    rw [combinedStore_none] at hst1
    rw [hst1]
    by_cases h2 : (runFiles cfg
        (loadHashes (runFiles cfg (loadHashes []) files []).2) files
        (runFiles cfg (loadHashes []) files []).2).1 = []
    · have hst2 := runIngest_eq_of_nil cfg files
        { ledger := (runFiles cfg (loadHashes []) files []).2,
          store := some
            { cols := (concatFrames (runFiles cfg (loadHashes []) files []).1).cols,
              rows := mergeRows
                (concatFrames (runFiles cfg (loadHashes []) files []).1).cols
                (concatFrames (runFiles cfg (loadHashes []) files []).1).rows } } h2
      rw [hst2]
      exact ⟨rfl, rfl, List.Perm.refl _⟩
    · have hst2 := runIngest_eq_of_ne cfg files
        { ledger := (runFiles cfg (loadHashes []) files []).2,
          store := some
            { cols := (concatFrames (runFiles cfg (loadHashes []) files []).1).cols,
              rows := mergeRows
                (concatFrames (runFiles cfg (loadHashes []) files []).1).cols
                (concatFrames (runFiles cfg (loadHashes []) files []).1).rows } } h2
      rw [combinedStore_some] at hst2
      rw [hst2]
      obtain ⟨fr2, hfr2⟩ := List.exists_mem_of_ne_nil _ h2
      have hfr2' : fr2 ∈ (runFiles cfg (loadHashes []) files []).1 :=
        second_run_frames_subset cfg files _ [] _ hfr2
      have hfr2sh : "source_hash" ∈ fr2.cols := by
        have hfr2'' := hfr2'
        rw [runFiles_fst] at hfr2''
        obtain ⟨f, hf, hmem⟩ := List.mem_flatMap.mp hfr2''
        by_cases hs : f.hash ∈ loadHashes ([] : List Char)
        · rw [if_pos hs] at hmem; simp at hmem
        · rw [if_neg hs] at hmem
          exact processFile_sourceHash_col hmem
      have hshC1 : "source_hash" ∈
          (concatFrames (runFiles cfg (loadHashes []) files []).1).cols :=
        (mem_foldl_addCols _ [] _).mpr (Or.inr ⟨fr2, hfr2', hfr2sh⟩)
      have hshK : "source_hash" ∈
          dedupKeyCols (concatFrames (runFiles cfg (loadHashes []) files []).1).cols := by
        unfold dedupKeyCols
        rw [List.mem_filter]
        exact ⟨by simp, decide_eq_true hshC1⟩
      have hcols2 : (concatFrames
          [{ cols := (concatFrames (runFiles cfg (loadHashes []) files []).1).cols,
             rows := mergeRows
               (concatFrames (runFiles cfg (loadHashes []) files []).1).cols
               (concatFrames (runFiles cfg (loadHashes []) files []).1).rows },
           concatFrames (runFiles cfg
             (loadHashes (runFiles cfg (loadHashes []) files []).2) files
             (runFiles cfg (loadHashes []) files []).2).1]).cols =
          (concatFrames (runFiles cfg (loadHashes []) files []).1).cols := by
        show addCols
          (addCols [] (concatFrames (runFiles cfg (loadHashes []) files []).1).cols)
          (concatFrames (runFiles cfg
            (loadHashes (runFiles cfg (loadHashes []) files []).2) files
            (runFiles cfg (loadHashes []) files []).2).1).cols =
          (concatFrames (runFiles cfg (loadHashes []) files []).1).cols
        have hnil : addCols []
            (concatFrames (runFiles cfg (loadHashes []) files []).1).cols =
            (concatFrames (runFiles cfg (loadHashes []) files []).1).cols := by
          have hd := addCols_of_disjoint
            (concatFrames (runFiles cfg (loadHashes []) files []).1).cols []
            (foldl_addCols_nodup _ [] List.nodup_nil) (by simp)
          simpa using hd
        rw [hnil]
        apply addCols_absorb
        intro c hc
        rcases (mem_foldl_addCols _ [] c).mp hc with hfalse | ⟨fr, hfr, hcfr⟩
        · simp at hfalse
        · exact (mem_foldl_addCols _ [] c).mpr
            (Or.inr ⟨fr, second_run_frames_subset cfg files _ [] _ hfr, hcfr⟩)
      rw [hcols2]
      refine ⟨rfl, rfl, ?_⟩
      have hrows2 : (concatFrames
          [{ cols := (concatFrames (runFiles cfg (loadHashes []) files []).1).cols,
             rows := mergeRows
               (concatFrames (runFiles cfg (loadHashes []) files []).1).cols
               (concatFrames (runFiles cfg (loadHashes []) files []).1).rows },
           concatFrames (runFiles cfg
             (loadHashes (runFiles cfg (loadHashes []) files []).2) files
             (runFiles cfg (loadHashes []) files []).2).1]).rows =
          mergeRows (concatFrames (runFiles cfg (loadHashes []) files []).1).cols
            (concatFrames (runFiles cfg (loadHashes []) files []).1).rows ++
          (concatFrames (runFiles cfg
            (loadHashes (runFiles cfg (loadHashes []) files []).2) files
            (runFiles cfg (loadHashes []) files []).2).1).rows := by
        show mergeRows (concatFrames (runFiles cfg (loadHashes []) files []).1).cols
            (concatFrames (runFiles cfg (loadHashes []) files []).1).rows ++
          ((concatFrames (runFiles cfg
            (loadHashes (runFiles cfg (loadHashes []) files []).2) files
            (runFiles cfg (loadHashes []) files []).2).1).rows ++ []) = _
        rw [List.append_nil]
      show List.Perm
        (mergeRows (concatFrames (runFiles cfg (loadHashes []) files []).1).cols
          ((concatFrames
            [{ cols := (concatFrames (runFiles cfg (loadHashes []) files []).1).cols,
               rows := mergeRows
                 (concatFrames (runFiles cfg (loadHashes []) files []).1).cols
                 (concatFrames (runFiles cfg (loadHashes []) files []).1).rows },
             concatFrames (runFiles cfg
               (loadHashes (runFiles cfg (loadHashes []) files []).2) files
               (runFiles cfg (loadHashes []) files []).2).1]).rows))
        (mergeRows (concatFrames (runFiles cfg (loadHashes []) files []).1).cols
          (concatFrames (runFiles cfg (loadHashes []) files []).1).rows)
      rw [hrows2]
      exact keepLast_absorb
        (rowKey (dedupKeyCols (concatFrames (runFiles cfg (loadHashes []) files []).1).cols))
        (concatFrames (runFiles cfg (loadHashes []) files []).1).rows
        (concatFrames (runFiles cfg
          (loadHashes (runFiles cfg (loadHashes []) files []).2) files
          (runFiles cfg (loadHashes []) files []).2).1).rows
        (fun k hk => runs_filter_eq cfg files
          (loadHashes (runFiles cfg (loadHashes []) files []).2) []
          (runFiles cfg (loadHashes []) files []).2
          (dedupKeyCols (concatFrames (runFiles cfg (loadHashes []) files []).1).cols)
          hshK k hk)

/-- Claim C7 witness: a frame matching both configured providers resolves
to the earlier-declared one. -/
theorem c7_detect_provider_first_match_witness :
    detect_provider frameOK cfgDup = some "provA" :=
  ((c7_detect_provider_first_match frameOK cfgDup).1 "provA").mpr
    ⟨[], ruleA, [("provZ", ruleA)], rfl, ⟨"timestamp", by decide, by decide⟩, by simp⟩
